import Mathlib

/-!
Verification of the Pike VM regular-expression engine
(`yara-x/src/re/thompson/pikevm.rs`).

The development shallowly embeds the VM: the instruction decoder is abstract
(its contract is specified, not its binary format), and the two core routines
`epsilon_closure` and `PikeVM::try_match` are translated into fuel-based
executable Lean functions.  Rust `Vec` stacks are modelled as Lean lists with
the head as the top of the stack; the output closure and the callback trace
keep the `Vec` order (append at the end).  Machine integers are modelled as
`Nat`/`Int`; the `try_into().unwrap()` conversion of a possibly negative
jump target is modelled as an explicit `panic` outcome.
-/

namespace PikeVM

/-- Modelled from the spec: the action returned by the match callback
(`Action::Continue` keeps scanning, `Action::Stop` is the cancellation
signal). The `Action` type itself is defined outside `src/`. -/
inductive Action where
  | Continue
  | Stop
deriving DecidableEq

/-- Modelled from the spec: the decoded instruction variants of §3 of the
specification. The decoder (`instr.rs`) is outside `src/`; payloads are the
minimum data needed to execute. A `ClassBitmap` payload is modelled as its
membership function, `ClassRanges` as a list of inclusive byte ranges, and
split/jump offsets as signed integers. -/
inductive Instr where
  | AnyByte
  | Byte (b : Nat)
  | MaskedByte (b m : Nat)
  | CaseInsensitiveChar (b : Nat)
  | ClassBitmap (cls : Nat → Bool)
  | ClassRanges (ranges : List (Nat × Nat))
  | Match
  | SplitA (o : Int)
  | SplitB (o : Int)
  | SplitN (os : List Int)
  | Jump (o : Int)
  | Start
  | End
  | WordBoundary
  | WordBoundaryNeg
  | Eoi

/-- Modelled from the spec: the instruction decoder contract of §4.1 — a pure
operation that, given a byte offset inside the program, returns the decoded
instruction together with the number of bytes it occupies
(`InstrParser::decode_instr(&code[ip..])`).  The program itself is abstracted
by this decode function. -/
structure Program where
  decode : Nat → Instr × Nat

/-- Modelled from the spec: the code-location abstraction of §4.4 — a program
offset together with the direction flag used to orient anchors (the `CodeLoc`
trait).  `C::from(off)` in the source keeps the direction of the type, so a
derived location inherits `backwards` from the start location. -/
structure CodeLoc where
  location : Nat
  backwards : Bool

/-- Modelled from the spec: the default scan limit (4096 bytes). -/
def DEFAULT_SCAN_LIMIT : Nat := 4096

/-- ASCII alphanumeric test, as `u8::is_ascii_alphanumeric` in the source:
a digit, uppercase or lowercase ASCII letter. -/
def isAsciiAlphanumeric (b : Nat) : Bool :=
  decide ((48 ≤ b ∧ b ≤ 57) ∨ (65 ≤ b ∧ b ≤ 90) ∨ (97 ≤ b ∧ b ≤ 122))

/-- ASCII lowercasing, as `u8::to_ascii_lowercase` in the source. -/
def toAsciiLowercase (b : Nat) : Nat :=
  if 65 ≤ b ∧ b ≤ 90 then b + 32 else b

/-- Membership of a byte in a `ClassRanges` payload: some inclusive range
contains it. -/
def rangesContain (rs : List (Nat × Nat)) (b : Nat) : Bool :=
  rs.any fun r => decide (r.1 ≤ b ∧ b ≤ r.2)

/-- The word-boundary test computed in the `Instr::WordBoundary` arm of
`epsilon_closure`: both neighbours present — their word-ness differs; exactly
one present — that byte's word-ness; none present — false. -/
def wbMatch (prev curr : Option Nat) : Bool :=
  match prev, curr with
  | some p, some c => isAsciiAlphanumeric p != isAsciiAlphanumeric c
  | none, some b => isAsciiAlphanumeric b
  | some b, none => isAsciiAlphanumeric b
  | none, none => false

/-- The byte test of the `try_match` dispatch (`is_match` in the source) for
the byte-consuming instructions, against the current optional byte. -/
def instrByteTest (instr : Instr) (curr : Option Nat) : Bool :=
  match instr, curr with
  | .AnyByte, c => c.isSome
  | .Byte b, some x => x == b
  | .MaskedByte b m, some x => Nat.land x m == b
  | .CaseInsensitiveChar b, some x => toAsciiLowercase x == b
  | .ClassBitmap cls, some x => cls x
  | .ClassRanges rs, some x => rangesContain rs x
  | _, _ => false

/-- An instruction on which the epsilon closure blocks: a byte-consuming
instruction or `Match`.  These are exactly the variants of the terminal arm
of `epsilon_closure`. -/
def isTerminal : Instr → Bool
  | .AnyByte | .Byte _ | .MaskedByte _ _ | .CaseInsensitiveChar _
  | .ClassBitmap _ | .ClassRanges _ | .Match => true
  | _ => false

/-- A split instruction (subject to the `executed_splits` bookkeeping). -/
def isSplit : Instr → Bool
  | .SplitA _ | .SplitB _ | .SplitN _ => true
  | _ => false

/-- The `(ip as i64 + offset as i64).try_into().unwrap()` conversion of the
source: the target offset when it is nonnegative, `none` (a panic) otherwise. -/
def addOffset (ip : Nat) (o : Int) : Option Nat :=
  if 0 ≤ (ip : Int) + o then some ((ip : Int) + o).toNat else none

/-- The deduplicating append of the terminal arm of `epsilon_closure`:
`if !closure.contains(&ip) { closure.push(ip) }`. -/
def pushUnique (cl : List Nat) (ip : Nat) : List Nat :=
  if cl.contains ip then cl else cl ++ [ip]

/-- Result of one `epsilon_closure` call.  `ok es cl` returns the final
`executed_splits` buffer and the extended output closure (the pending-offsets
stack is empty exactly when the loop exits); `panic` models the
`try_into().unwrap()` failure on a negative target; `out` means fuel ran out
before the stack was emptied. -/
inductive ClosureOut where
  | ok (es cl : List Nat)
  | panic
  | out
deriving DecidableEq

/-- The main loop of `epsilon_closure`: pop an offset from the pending stack,
decode it, and act as in the source.  The stack is the list head; `es` is
`executed_splits`, `cl` the output closure.  The first argument is fuel; the
source loop has no such bound, so divergence shows up as `ClosureOut.out` for
every fuel. -/
def closureLoop (P : Program) (bw : Bool) (curr prev : Option Nat) :
    Nat → List Nat → List Nat → List Nat → ClosureOut
  | _, [], es, cl => .ok es cl
  | 0, _ :: _, _, _ => .out
  | n + 1, ip :: rest, es, cl =>
    match P.decode ip with
    | (.AnyByte, _) => closureLoop P bw curr prev n rest es (pushUnique cl ip)
    | (.Byte _, _) => closureLoop P bw curr prev n rest es (pushUnique cl ip)
    | (.MaskedByte _ _, _) => closureLoop P bw curr prev n rest es (pushUnique cl ip)
    | (.CaseInsensitiveChar _, _) =>
      closureLoop P bw curr prev n rest es (pushUnique cl ip)
    | (.ClassBitmap _, _) => closureLoop P bw curr prev n rest es (pushUnique cl ip)
    | (.ClassRanges _, _) => closureLoop P bw curr prev n rest es (pushUnique cl ip)
    | (.Match, _) => closureLoop P bw curr prev n rest es (pushUnique cl ip)
    | (.SplitA o, sz) =>
      if es.contains ip then closureLoop P bw curr prev n rest es cl
      else
        match addOffset ip o with
        | none => .panic
        | some t => closureLoop P bw curr prev n ((ip + sz) :: t :: rest) (es ++ [ip]) cl
    | (.SplitB o, sz) =>
      if es.contains ip then closureLoop P bw curr prev n rest es cl
      else
        match addOffset ip o with
        | none => .panic
        | some t => closureLoop P bw curr prev n (t :: (ip + sz) :: rest) (es ++ [ip]) cl
    | (.SplitN os, _) =>
      if es.contains ip then closureLoop P bw curr prev n rest es cl
      else
        match os.mapM (addOffset ip) with
        | none => .panic
        | some ts => closureLoop P bw curr prev n (ts ++ rest) (es ++ [ip]) cl
    | (.Jump o, _) =>
      match addOffset ip o with
      | none => .panic
      | some t => closureLoop P bw curr prev n (t :: rest) es cl
    | (.Start, sz) =>
      if bw then
        if curr.isNone then closureLoop P bw curr prev n ((ip + sz) :: rest) es cl
        else closureLoop P bw curr prev n rest es cl
      else
        if prev.isNone then closureLoop P bw curr prev n ((ip + sz) :: rest) es cl
        else closureLoop P bw curr prev n rest es cl
    | (.End, sz) =>
      if bw then
        if prev.isNone then closureLoop P bw curr prev n ((ip + sz) :: rest) es cl
        else closureLoop P bw curr prev n rest es cl
      else
        if curr.isNone then closureLoop P bw curr prev n ((ip + sz) :: rest) es cl
        else closureLoop P bw curr prev n rest es cl
    | (.WordBoundary, sz) =>
      if wbMatch prev curr then closureLoop P bw curr prev n ((ip + sz) :: rest) es cl
      else closureLoop P bw curr prev n rest es cl
    | (.WordBoundaryNeg, sz) =>
      if !wbMatch prev curr then closureLoop P bw curr prev n ((ip + sz) :: rest) es cl
      else closureLoop P bw curr prev n rest es cl
    | (.Eoi, _) => closureLoop P bw curr prev n rest es cl

/-- `epsilon_closure(code, start, curr_byte, prev_byte, state, closure)`:
push the start offset on the (empty) pending stack, clear `executed_splits`,
and run the loop, appending blocked offsets into `cl`. -/
def epsilonClosure (P : Program) (start : CodeLoc) (curr prev : Option Nat)
    (fuel : Nat) (cl : List Nat) : ClosureOut :=
  closureLoop P start.backwards curr prev fuel [start.location] [] cl

/-- Result of the per-byte thread iteration (the inner `for` loop of
`try_match`): the callback state, the callback trace so far, and the
accumulated `next_threads`; or a closure failure (`cfail`, fuel/panic); or
the `unreachable!()` arm of the dispatch (`unreach`). -/
inductive StepRes (σ : Type) where
  | ok (s : σ) (calls : List Nat) (nextT : List Nat)
  | cfail
  | unreach

/-- The inner `for ip in self.threads.iter()` loop of `try_match`: decode each
active thread, test it against `curr`, spawn its successor closure into the
next-thread buffer on a match, invoke the callback on `Match` (breaking on
`Stop`), and break on `Eoi`.  The callback is a state-passing function
`F : σ → Nat → σ × Action` (an `FnMut`); `calls` records every position passed
to it, in order. -/
def stepThreads {σ : Type} (P : Program) (bw : Bool) (fuel : Nat)
    (curr nextB : Option Nat) (pos : Nat) (F : σ → Nat → σ × Action) :
    List Nat → σ → List Nat → List Nat → StepRes σ
  | [], s, calls, nextT => .ok s calls nextT
  | ip :: rest, s, calls, nextT =>
    match P.decode ip with
    | (.Match, _) =>
      match F s pos with
      | (s1, .Stop) => .ok s1 (calls ++ [pos]) nextT
      | (s1, .Continue) => stepThreads P bw fuel curr nextB pos F rest s1 (calls ++ [pos]) nextT
    | (.Eoi, _) => .ok s calls nextT
    | (.AnyByte, sz) =>
      if instrByteTest .AnyByte curr then
        match epsilonClosure P ⟨ip + sz, bw⟩ nextB curr fuel nextT with
        | .ok _ nextT1 => stepThreads P bw fuel curr nextB pos F rest s calls nextT1
        | .panic => .cfail
        | .out => .cfail
      else stepThreads P bw fuel curr nextB pos F rest s calls nextT
    | (.Byte b, sz) =>
      if instrByteTest (.Byte b) curr then
        match epsilonClosure P ⟨ip + sz, bw⟩ nextB curr fuel nextT with
        | .ok _ nextT1 => stepThreads P bw fuel curr nextB pos F rest s calls nextT1
        | .panic => .cfail
        | .out => .cfail
      else stepThreads P bw fuel curr nextB pos F rest s calls nextT
    | (.MaskedByte b m, sz) =>
      if instrByteTest (.MaskedByte b m) curr then
        match epsilonClosure P ⟨ip + sz, bw⟩ nextB curr fuel nextT with
        | .ok _ nextT1 => stepThreads P bw fuel curr nextB pos F rest s calls nextT1
        | .panic => .cfail
        | .out => .cfail
      else stepThreads P bw fuel curr nextB pos F rest s calls nextT
    | (.CaseInsensitiveChar b, sz) =>
      if instrByteTest (.CaseInsensitiveChar b) curr then
        match epsilonClosure P ⟨ip + sz, bw⟩ nextB curr fuel nextT with
        | .ok _ nextT1 => stepThreads P bw fuel curr nextB pos F rest s calls nextT1
        | .panic => .cfail
        | .out => .cfail
      else stepThreads P bw fuel curr nextB pos F rest s calls nextT
    | (.ClassBitmap cls, sz) =>
      if instrByteTest (.ClassBitmap cls) curr then
        match epsilonClosure P ⟨ip + sz, bw⟩ nextB curr fuel nextT with
        | .ok _ nextT1 => stepThreads P bw fuel curr nextB pos F rest s calls nextT1
        | .panic => .cfail
        | .out => .cfail
      else stepThreads P bw fuel curr nextB pos F rest s calls nextT
    | (.ClassRanges rs, sz) =>
      if instrByteTest (.ClassRanges rs) curr then
        match epsilonClosure P ⟨ip + sz, bw⟩ nextB curr fuel nextT with
        | .ok _ nextT1 => stepThreads P bw fuel curr nextB pos F rest s calls nextT1
        | .panic => .cfail
        | .out => .cfail
      else stepThreads P bw fuel curr nextB pos F rest s calls nextT
    | (.SplitA _, _) => .unreach
    | (.SplitB _, _) => .unreach
    | (.SplitN _, _) => .unreach
    | (.Jump _, _) => .unreach
    | (.Start, _) => .unreach
    | (.End, _) => .unreach
    | (.WordBoundary, _) => .unreach
    | (.WordBoundaryNeg, _) => .unreach

/-- Result of a whole `try_match` invocation.  `ok` carries the final callback
state, the trace of positions passed to the callback (in call order), the
trace of active-thread lists, one per executed simulation step (index = the
`current_pos` of that step), and the number of `fwd_input.next()` calls made.
`closureFail` marks a failed closure call (fuel or panic), `unreach` the
`unreachable!()` arm of the dispatch. -/
inductive Outcome (σ : Type) where
  | ok (s : σ) (calls : List Nat) (steps : List (List Nat)) (fetches : Nat)
  | closureFail
  | unreach

/-- The outer `while !self.threads.is_empty()` loop of `try_match`: fetch the
look-ahead byte, run the thread iteration, advance the position, swap the
thread buffers (`threads := nextT`, next buffer cleared to `[]`), and stop
once `current_pos >= scan_limit`. -/
def vmLoop {σ : Type} (P : Program) (bw : Bool) (scanLimit fuel : Nat)
    (F : σ → Nat → σ × Action) (threads : List Nat) (curr : Option Nat)
    (fwdRest : List Nat) (pos fetches : Nat) (s : σ) (calls : List Nat)
    (steps : List (List Nat)) : Outcome σ :=
  if threads.isEmpty then .ok s calls steps fetches
  else
    match stepThreads P bw fuel curr fwdRest.head? pos F threads s calls [] with
    | .cfail => .closureFail
    | .unreach => .unreach
    | .ok s1 calls1 nextT =>
      if h : pos + 1 ≥ scanLimit then .ok s1 calls1 (steps ++ [threads]) (fetches + 1)
      else
        vmLoop P bw scanLimit fuel F nextT fwdRest.head? fwdRest.tail (pos + 1)
          (fetches + 1) s1 calls1 (steps ++ [threads])
termination_by scanLimit - pos
decreasing_by simp_wf; omega

/-- `PikeVM::try_match(start, fwd_input, bck_input, f)`: seed the (empty)
thread list with the epsilon closure of the start location against the first
forward byte and the first backward byte, then run the main loop.  `fwd` and
`bck` are the two lazy byte sequences as lists; the initial
`fwd_input.next()` is counted in `fetches`. -/
def tryMatch {σ : Type} (P : Program) (start : CodeLoc) (scanLimit fuel : Nat)
    (fwd bck : List Nat) (F : σ → Nat → σ × Action) (s0 : σ) : Outcome σ :=
  match epsilonClosure P start fwd.head? bck.head? fuel [] with
  | .panic => .closureFail
  | .out => .closureFail
  | .ok _ threads =>
    vmLoop P start.backwards scanLimit fuel F threads fwd.head? fwd.tail 0 1 s0 [] []

/-- The claim-side word-ness function of the word-boundary law: a present
byte is a word byte iff it is ASCII alphanumeric, a missing byte is not a
word byte. -/
def wOpt : Option Nat → Bool
  | some b => isAsciiAlphanumeric b
  | none => false

/-- Successor offsets an instruction can push inside `epsilon_closure`
(`none` when computing a target would panic).  Splits list their targets in
exploration order; zero-width assertions list their fallthrough; terminal
instructions and `Eoi` push nothing. -/
def instrSuccs (P : Program) (ip : Nat) : Option (List Nat) :=
  match P.decode ip with
  | (.SplitA o, sz) => (addOffset ip o).map fun t => [ip + sz, t]
  | (.SplitB o, sz) => (addOffset ip o).map fun t => [t, ip + sz]
  | (.SplitN os, _) => os.mapM (addOffset ip)
  | (.Jump o, _) => (addOffset ip o).map fun t => [t]
  | (.Start, sz) => some [ip + sz]
  | (.End, sz) => some [ip + sz]
  | (.WordBoundary, sz) => some [ip + sz]
  | (.WordBoundaryNeg, sz) => some [ip + sz]
  | _ => some []

/-- Stack-weight an instruction adds when processed, under a rank function:
the sum of `rank t + 1` over its successors. -/
def pushCost (P : Program) (rank : Nat → Nat) (ip : Nat) : Nat :=
  match instrSuccs P ip with
  | some ts => (ts.map fun t => rank t + 1).sum
  | none => 0

/-- Termination measure for the closure loop: a large weight for each split
not yet in `executed_splits`, plus the rank-weight of the pending stack. -/
def closureMeasure (rank : Nat → Nat) (K L : Nat) (stack es : List Nat) : Nat :=
  K * (L - es.length) + (stack.map fun ip => rank ip + 1).sum

/-- Concrete program: a single byte match followed by `Match`
(the bytecode of the pattern `a`). -/
def progByteMatch : Program :=
  ⟨fun ip => if ip = 0 then (.Byte 97, 2) else if ip = 2 then (.Match, 1) else (.Eoi, 1)⟩

/-- Concrete program: a split whose fallthrough branch consumes the byte 97
and whose other branch is an immediate `Match` (the bytecode of `a?`-style
alternation `(a|)`). -/
def progSplitMatch : Program :=
  ⟨fun ip =>
    if ip = 0 then (.SplitA 4, 2)
    else if ip = 2 then (.Byte 97, 2)
    else if ip = 4 then (.Match, 1)
    else (.Eoi, 1)⟩

/-- Concrete program: a single `AnyByte` instruction. -/
def progAnyByte : Program :=
  ⟨fun ip => if ip = 0 then (.AnyByte, 1) else (.Eoi, 1)⟩

/-- Concrete program: a split both of whose branches reach the same
byte-consuming instruction at offset 2. -/
def progSplitDup : Program :=
  ⟨fun ip => if ip = 0 then (.SplitA 2, 2) else if ip = 2 then (.Byte 97, 2) else (.Eoi, 1)⟩

/-- Concrete program: a jump that targets itself — a cyclic epsilon graph
with no split on the cycle. -/
def progJumpLoop : Program := ⟨fun _ => (.Jump 0, 1)⟩

/-- Concrete program with a cyclic epsilon graph through a split: the split at
0 falls through to a jump at 2 that jumps back to the split; the other branch
blocks on a byte instruction at 4. -/
def progSplitJumpCycle : Program :=
  ⟨fun ip =>
    if ip = 0 then (.SplitA 4, 2)
    else if ip = 2 then (.Jump (-2), 2)
    else if ip = 4 then (.Byte 97, 2)
    else (.Eoi, 1)⟩

/-- A rank for `progSplitJumpCycle` that decreases along its one non-split
epsilon edge (the jump from 2 back to 0). -/
def rankCycle : Nat → Nat := fun ip => if ip = 2 then 1 else 0

/-- Concrete program: a `Start` anchor whose fallthrough is a `Match`. -/
def progAnchor : Program :=
  ⟨fun ip => if ip = 0 then (.Start, 1) else if ip = 1 then (.Match, 1) else (.Eoi, 1)⟩

/-- Concrete program: a negated word boundary whose fallthrough is a `Match`. -/
def progWBNeg : Program :=
  ⟨fun ip => if ip = 0 then (.WordBoundaryNeg, 1) else if ip = 1 then (.Match, 1) else (.Eoi, 1)⟩


/-- Concrete program: a `SplitB` whose fallthrough branch consumes the byte
97 and whose offset branch is an immediate `Match`. -/
def progSplitBMatch : Program :=
  ⟨fun ip =>
    if ip = 0 then (.SplitB 4, 2)
    else if ip = 2 then (.Byte 97, 2)
    else if ip = 4 then (.Match, 1)
    else (.Eoi, 1)⟩

/-- Concrete program: a `SplitN` listing offsets 2 and 4, a byte instruction
at 2 and a `Match` at 4. -/
def progSplitN : Program :=
  ⟨fun ip =>
    if ip = 0 then (.SplitN [2, 4], 2)
    else if ip = 2 then (.Byte 97, 2)
    else if ip = 4 then (.Match, 1)
    else (.Eoi, 1)⟩

/-- Concrete program: an `End` anchor whose fallthrough is a `Match`. -/
def progAnchorEnd : Program :=
  ⟨fun ip => if ip = 0 then (.End, 1) else if ip = 1 then (.Match, 1) else (.Eoi, 1)⟩

/-- Concrete program: a `WordBoundary` whose fallthrough is a `Match`. -/
def progWB : Program :=
  ⟨fun ip => if ip = 0 then (.WordBoundary, 1) else if ip = 1 then (.Match, 1) else (.Eoi, 1)⟩

/-- A stateless callback that always answers `Stop`. -/
def alwaysStop : Unit → Nat → Unit × Action := fun _ _ => ((), .Stop)

/-- A stateless callback that always answers `Continue`. -/
def alwaysContinue : Unit → Nat → Unit × Action := fun _ _ => ((), .Continue)

/-! ### Basic lemmas about the closure loop -/

theorem mem_pushUnique {cl : List Nat} {ip x : Nat} :
    x ∈ pushUnique cl ip ↔ x ∈ cl ∨ x = ip := by
  unfold pushUnique
  split
  · next h =>
    rw [List.elem_iff] at h
    constructor
    · exact fun hx => Or.inl hx
    · rintro (hx | rfl) <;> assumption
  · simp

theorem nodup_pushUnique {cl : List Nat} {ip : Nat} (h : cl.Nodup) :
    (pushUnique cl ip).Nodup := by
  unfold pushUnique
  split
  · exact h
  · next hc =>
    rw [List.nodup_append]
    refine ⟨h, List.nodup_singleton ip, ?_⟩
    intro x hx hx1
    rw [List.mem_singleton] at hx1
    subst hx1
    exact hc (by rw [List.elem_iff]; exact hx)

theorem pushUnique_of_not_mem {cl : List Nat} {ip : Nat} (h : ip ∉ cl) :
    pushUnique cl ip = cl ++ [ip] := by
  unfold pushUnique
  rw [if_neg]
  intro hc
  exact h (by rwa [List.elem_iff] at hc)

/-- Soundness of the closure loop: when it completes, every offset of the
extended output was already in the input output or decodes to a terminal
(byte-consuming or `Match`) instruction, offsets are appended only when not
already present (so no-duplicates is preserved), and the output grows by
appending. -/
theorem closureLoop_sound (P : Program) (bw : Bool) (c p : Option Nat) :
    ∀ (n : Nat) (stack es cl es' cl' : List Nat),
      closureLoop P bw c p n stack es cl = ClosureOut.ok es' cl' →
      (∀ x, x ∈ cl' → x ∈ cl ∨ isTerminal (P.decode x).1 = true) ∧
      (cl.Nodup → cl'.Nodup) ∧ (∃ d, cl' = cl ++ d) := by
  intro n
  induction n with
  | zero =>
    intro stack es cl es' cl' h
    cases stack with
    | nil =>
      simp only [closureLoop, ClosureOut.ok.injEq] at h
      obtain ⟨-, rfl⟩ := h
      exact ⟨fun x hx => Or.inl hx, fun h => h, ⟨[], by simp⟩⟩
    | cons ip rest =>
      simp only [closureLoop] at h
      cases h
  | succ n ih =>
    intro stack es cl es' cl' h
    cases stack with
    | nil =>
      simp only [closureLoop, ClosureOut.ok.injEq] at h
      obtain ⟨-, rfl⟩ := h
      exact ⟨fun x hx => Or.inl hx, fun h => h, ⟨[], by simp⟩⟩
    | cons ip rest =>
      have step :
          ∀ cl₀ : List Nat,
            closureLoop P bw c p n rest es cl₀ = ClosureOut.ok es' cl' →
            cl₀ = pushUnique cl ip →
            isTerminal (P.decode ip).1 = true →
            (∀ x, x ∈ cl' → x ∈ cl ∨ isTerminal (P.decode x).1 = true) ∧
            (cl.Nodup → cl'.Nodup) ∧ (∃ d, cl' = cl ++ d) := by
        intro cl₀ h hcl₀ hterm
        obtain ⟨hmem, hnd, hext⟩ := ih rest es cl₀ es' cl' h
        subst hcl₀
        refine ⟨?_, ?_, ?_⟩
        · intro x hx
          rcases hmem x hx with hx1 | hx1
          · rcases mem_pushUnique.mp hx1 with hx2 | rfl
            · exact Or.inl hx2
            · exact Or.inr hterm
          · exact Or.inr hx1
        · intro hcl
          exact hnd (nodup_pushUnique hcl)
        · obtain ⟨d, hd⟩ := hext
          unfold pushUnique at hd
          revert hd
          split
          · intro hd; exact ⟨d, hd⟩
          · intro hd; exact ⟨[ip] ++ d, by simpa using hd⟩
      rcases hd : P.decode ip with ⟨instr, sz⟩
      rw [closureLoop, hd] at h
      cases instr with
      | AnyByte => exact step _ h rfl (by rw [hd]; rfl)
      | Byte b => exact step _ h rfl (by rw [hd]; rfl)
      | MaskedByte b m => exact step _ h rfl (by rw [hd]; rfl)
      | CaseInsensitiveChar b => exact step _ h rfl (by rw [hd]; rfl)
      | ClassBitmap cls => exact step _ h rfl (by rw [hd]; rfl)
      | ClassRanges rs => exact step _ h rfl (by rw [hd]; rfl)
      | Match => exact step _ h rfl (by rw [hd]; rfl)
      | SplitA o =>
        simp only at h
        split at h
        · exact ih _ _ _ _ _ h
        · cases ha : addOffset ip o with
          | none => rw [ha] at h; cases h
          | some t => rw [ha] at h; exact ih _ _ _ _ _ h
      | SplitB o =>
        simp only at h
        split at h
        · exact ih _ _ _ _ _ h
        · cases ha : addOffset ip o with
          | none => rw [ha] at h; cases h
          | some t => rw [ha] at h; exact ih _ _ _ _ _ h
      | SplitN os =>
        simp only at h
        split at h
        · exact ih _ _ _ _ _ h
        · cases ha : os.mapM (addOffset ip) with
          | none => rw [ha] at h; cases h
          | some ts => rw [ha] at h; exact ih _ _ _ _ _ h
      | Jump o =>
        simp only at h
        cases ha : addOffset ip o with
        | none => rw [ha] at h; cases h
        | some t => rw [ha] at h; exact ih _ _ _ _ _ h
      | Start =>
        simp only at h
        split at h <;> split at h <;> exact ih _ _ _ _ _ h
      | End =>
        simp only at h
        split at h <;> split at h <;> exact ih _ _ _ _ _ h
      | WordBoundary =>
        simp only at h
        split at h <;> exact ih _ _ _ _ _ h
      | WordBoundaryNeg =>
        simp only at h
        split at h <;> exact ih _ _ _ _ _ h
      | Eoi => exact ih _ _ _ _ _ h

/-- Running the closure loop on a stack of pairwise distinct terminal
offsets, none already in the output, appends them in stack order. -/
theorem closureLoop_run_terminals (P : Program) (bw : Bool) (c p : Option Nat) :
    ∀ (stack es cl : List Nat),
      (∀ x ∈ stack, isTerminal (P.decode x).1 = true) →
      stack.Nodup → (∀ x ∈ stack, x ∉ cl) →
      closureLoop P bw c p stack.length stack es cl = ClosureOut.ok es (cl ++ stack) := by
  intro stack
  induction stack with
  | nil => intro es cl _ _ _; simp [closureLoop]
  | cons x rest ih =>
    intro es cl hterm hnd hmem
    have hx := hterm x (List.mem_cons_self x rest)
    rcases hd : P.decode x with ⟨instr, sz⟩
    rw [hd] at hx
    have hpu : pushUnique cl x = cl ++ [x] :=
      pushUnique_of_not_mem (hmem x (List.mem_cons_self x rest))
    have hrec : closureLoop P bw c p rest.length rest es (cl ++ [x]) =
        ClosureOut.ok es ((cl ++ [x]) ++ rest) := by
      apply ih
      · intro y hy; exact hterm y (List.mem_cons_of_mem x hy)
      · exact (List.nodup_cons.mp hnd).2
      · intro y hy
        rw [List.mem_append]
        rintro (hy1 | hy1)
        · exact hmem y (List.mem_cons_of_mem x hy) hy1
        · rw [List.mem_singleton] at hy1
          subst hy1
          exact (List.nodup_cons.mp hnd).1 hy
    have hstep : closureLoop P bw c p (rest.length + 1) (x :: rest) es cl =
        closureLoop P bw c p rest.length rest es (pushUnique cl x) := by
      cases instr <;>
        first
          | (exfalso; revert hx; simp [isTerminal]; done)
          | simp only [closureLoop, hd]
    rw [List.length_cons, hstep, hpu, hrec]
    simp

/-! ### Lemmas about the per-byte thread iteration -/

/-- Soundness of the thread iteration: the callback trace only grows, and the
next-thread buffer grows only by offsets that decode to terminal
instructions, without introducing duplicates. -/
theorem stepThreads_sound {σ : Type} (P : Program) (bw : Bool) (fuel : Nat)
    (curr nextB : Option Nat) (pos : Nat) (F : σ → Nat → σ × Action) :
    ∀ (threads : List Nat) (s : σ) (calls nextT : List Nat) (s' : σ)
      (calls' nextT' : List Nat),
      stepThreads P bw fuel curr nextB pos F threads s calls nextT =
        StepRes.ok s' calls' nextT' →
      (∀ x, x ∈ calls → x ∈ calls') ∧
      (∀ x, x ∈ nextT' → x ∈ nextT ∨ isTerminal (P.decode x).1 = true) ∧
      (nextT.Nodup → nextT'.Nodup) := by
  intro threads
  induction threads with
  | nil =>
    intro s calls nextT s' calls' nextT' h
    simp only [stepThreads, StepRes.ok.injEq] at h
    obtain ⟨-, rfl, rfl⟩ := h
    exact ⟨fun x hx => hx, fun x hx => Or.inl hx, fun h => h⟩
  | cons ip rest ih =>
    intro s calls nextT s' calls' nextT' h
    have chain :
        ∀ (st : Nat) (s0 : σ) (calls0 : List Nat) (es1 nextT1 : List Nat),
          (∀ x, x ∈ calls → x ∈ calls0) →
          epsilonClosure P ⟨st, bw⟩ nextB curr fuel nextT = ClosureOut.ok es1 nextT1 →
          stepThreads P bw fuel curr nextB pos F rest s0 calls0 nextT1 =
            StepRes.ok s' calls' nextT' →
          (∀ x, x ∈ calls → x ∈ calls') ∧
          (∀ x, x ∈ nextT' → x ∈ nextT ∨ isTerminal (P.decode x).1 = true) ∧
          (nextT.Nodup → nextT'.Nodup) := by
      intro st s0 calls0 es1 nextT1 hsub hc hr
      obtain ⟨m1, m2, m3⟩ := ih s0 calls0 nextT1 s' calls' nextT' hr
      obtain ⟨c1, c2, c3⟩ :=
        closureLoop_sound P bw nextB curr fuel [st] [] nextT es1 nextT1 hc
      refine ⟨fun x hx => m1 x (hsub x hx), fun x hx => ?_, fun hnd => m3 (c2 hnd)⟩
      rcases m2 x hx with hx1 | hx1
      · exact c1 x hx1
      · exact Or.inr hx1
    rcases hd : P.decode ip with ⟨instr, sz⟩
    rw [stepThreads, hd] at h
    cases instr with
    | Match =>
      simp only at h
      rcases hF : F s pos with ⟨s1, a⟩
      rw [hF] at h
      cases a with
      | Stop =>
        simp only [StepRes.ok.injEq] at h
        obtain ⟨-, rfl, rfl⟩ := h
        exact ⟨fun x hx => List.mem_append_left _ hx, fun x hx => Or.inl hx, fun h => h⟩
      | Continue =>
        obtain ⟨m1, m2, m3⟩ := ih s1 (calls ++ [pos]) nextT s' calls' nextT' h
        exact ⟨fun x hx => m1 x (List.mem_append_left _ hx), m2, m3⟩
    | Eoi =>
      simp only [StepRes.ok.injEq] at h
      obtain ⟨-, rfl, rfl⟩ := h
      exact ⟨fun x hx => hx, fun x hx => Or.inl hx, fun h => h⟩
    | AnyByte =>
      simp only at h
      split at h
      · cases hc : epsilonClosure P ⟨ip + sz, bw⟩ nextB curr fuel nextT with
        | ok es1 nextT1 => rw [hc] at h; exact chain _ _ _ _ _ (fun x hx => hx) hc h
        | panic => rw [hc] at h; cases h
        | out => rw [hc] at h; cases h
      · exact ih _ _ _ _ _ _ h
    | Byte b =>
      simp only at h
      split at h
      · cases hc : epsilonClosure P ⟨ip + sz, bw⟩ nextB curr fuel nextT with
        | ok es1 nextT1 => rw [hc] at h; exact chain _ _ _ _ _ (fun x hx => hx) hc h
        | panic => rw [hc] at h; cases h
        | out => rw [hc] at h; cases h
      · exact ih _ _ _ _ _ _ h
    | MaskedByte b m =>
      simp only at h
      split at h
      · cases hc : epsilonClosure P ⟨ip + sz, bw⟩ nextB curr fuel nextT with
        | ok es1 nextT1 => rw [hc] at h; exact chain _ _ _ _ _ (fun x hx => hx) hc h
        | panic => rw [hc] at h; cases h
        | out => rw [hc] at h; cases h
      · exact ih _ _ _ _ _ _ h
    | CaseInsensitiveChar b =>
      simp only at h
      split at h
      · cases hc : epsilonClosure P ⟨ip + sz, bw⟩ nextB curr fuel nextT with
        | ok es1 nextT1 => rw [hc] at h; exact chain _ _ _ _ _ (fun x hx => hx) hc h
        | panic => rw [hc] at h; cases h
        | out => rw [hc] at h; cases h
      · exact ih _ _ _ _ _ _ h
    | ClassBitmap cls =>
      simp only at h
      split at h
      · cases hc : epsilonClosure P ⟨ip + sz, bw⟩ nextB curr fuel nextT with
        | ok es1 nextT1 => rw [hc] at h; exact chain _ _ _ _ _ (fun x hx => hx) hc h
        | panic => rw [hc] at h; cases h
        | out => rw [hc] at h; cases h
      · exact ih _ _ _ _ _ _ h
    | ClassRanges rs =>
      simp only at h
      split at h
      · cases hc : epsilonClosure P ⟨ip + sz, bw⟩ nextB curr fuel nextT with
        | ok es1 nextT1 => rw [hc] at h; exact chain _ _ _ _ _ (fun x hx => hx) hc h
        | panic => rw [hc] at h; cases h
        | out => rw [hc] at h; cases h
      · exact ih _ _ _ _ _ _ h
    | SplitA o => cases h
    | SplitB o => cases h
    | SplitN os => cases h
    | Jump o => cases h
    | Start => cases h
    | End => cases h
    | WordBoundary => cases h
    | WordBoundaryNeg => cases h

/-- If every active thread decodes to a terminal instruction and some thread
decodes to `Match`, a completed thread iteration has invoked the callback at
the current position. -/
theorem stepThreads_match_called {σ : Type} (P : Program) (bw : Bool) (fuel : Nat)
    (curr nextB : Option Nat) (pos : Nat) (F : σ → Nat → σ × Action) :
    ∀ (threads : List Nat) (s : σ) (calls nextT : List Nat) (s' : σ)
      (calls' nextT' : List Nat),
      (∀ ip ∈ threads, isTerminal (P.decode ip).1 = true) →
      stepThreads P bw fuel curr nextB pos F threads s calls nextT =
        StepRes.ok s' calls' nextT' →
      (∃ ip ∈ threads, (P.decode ip).1 = Instr.Match) →
      pos ∈ calls' := by
  intro threads
  induction threads with
  | nil =>
    intro s calls nextT s' calls' nextT' _ _ hw
    obtain ⟨w, hw, -⟩ := hw
    cases hw
  | cons ip rest ih =>
    intro s calls nextT s' calls' nextT' hterm h hw
    have hipt := hterm ip (List.mem_cons_self ip rest)
    rcases hd : P.decode ip with ⟨instr, sz⟩
    rw [hd] at hipt
    rw [stepThreads, hd] at h
    cases instr with
    | Match =>
      simp only at h
      rcases hF : F s pos with ⟨s1, a⟩
      rw [hF] at h
      cases a with
      | Stop =>
        simp only [StepRes.ok.injEq] at h
        obtain ⟨-, rfl, -⟩ := h
        simp
      | Continue =>
        obtain ⟨m1, -, -⟩ :=
          stepThreads_sound P bw fuel curr nextB pos F rest s1 (calls ++ [pos]) nextT
            s' calls' nextT' h
        exact m1 pos (by simp)
    | Eoi => exact absurd hipt (by simp [isTerminal])
    | AnyByte =>
      have hwitness : ∃ w ∈ rest, (P.decode w).1 = Instr.Match := by
        obtain ⟨w, hw1, hw2⟩ := hw
        rcases List.mem_cons.mp hw1 with rfl | hw3
        · rw [hd] at hw2; cases hw2
        · exact ⟨w, hw3, hw2⟩
      have hrt : ∀ x ∈ rest, isTerminal (P.decode x).1 = true :=
        fun x hx => hterm x (List.mem_cons_of_mem ip hx)
      simp only at h
      split at h
      · cases hc : epsilonClosure P ⟨ip + sz, bw⟩ nextB curr fuel nextT with
        | ok es1 nextT1 => rw [hc] at h; exact ih _ _ _ _ _ _ hrt h hwitness
        | panic => rw [hc] at h; cases h
        | out => rw [hc] at h; cases h
      · exact ih _ _ _ _ _ _ hrt h hwitness
    | Byte b =>
      have hwitness : ∃ w ∈ rest, (P.decode w).1 = Instr.Match := by
        obtain ⟨w, hw1, hw2⟩ := hw
        rcases List.mem_cons.mp hw1 with rfl | hw3
        · rw [hd] at hw2; cases hw2
        · exact ⟨w, hw3, hw2⟩
      have hrt : ∀ x ∈ rest, isTerminal (P.decode x).1 = true :=
        fun x hx => hterm x (List.mem_cons_of_mem ip hx)
      simp only at h
      split at h
      · cases hc : epsilonClosure P ⟨ip + sz, bw⟩ nextB curr fuel nextT with
        | ok es1 nextT1 => rw [hc] at h; exact ih _ _ _ _ _ _ hrt h hwitness
        | panic => rw [hc] at h; cases h
        | out => rw [hc] at h; cases h
      · exact ih _ _ _ _ _ _ hrt h hwitness
    | MaskedByte b m =>
      have hwitness : ∃ w ∈ rest, (P.decode w).1 = Instr.Match := by
        obtain ⟨w, hw1, hw2⟩ := hw
        rcases List.mem_cons.mp hw1 with rfl | hw3
        · rw [hd] at hw2; cases hw2
        · exact ⟨w, hw3, hw2⟩
      have hrt : ∀ x ∈ rest, isTerminal (P.decode x).1 = true :=
        fun x hx => hterm x (List.mem_cons_of_mem ip hx)
      simp only at h
      split at h
      · cases hc : epsilonClosure P ⟨ip + sz, bw⟩ nextB curr fuel nextT with
        | ok es1 nextT1 => rw [hc] at h; exact ih _ _ _ _ _ _ hrt h hwitness
        | panic => rw [hc] at h; cases h
        | out => rw [hc] at h; cases h
      · exact ih _ _ _ _ _ _ hrt h hwitness
    | CaseInsensitiveChar b =>
      have hwitness : ∃ w ∈ rest, (P.decode w).1 = Instr.Match := by
        obtain ⟨w, hw1, hw2⟩ := hw
        rcases List.mem_cons.mp hw1 with rfl | hw3
        · rw [hd] at hw2; cases hw2
        · exact ⟨w, hw3, hw2⟩
      have hrt : ∀ x ∈ rest, isTerminal (P.decode x).1 = true :=
        fun x hx => hterm x (List.mem_cons_of_mem ip hx)
      simp only at h
      split at h
      · cases hc : epsilonClosure P ⟨ip + sz, bw⟩ nextB curr fuel nextT with
        | ok es1 nextT1 => rw [hc] at h; exact ih _ _ _ _ _ _ hrt h hwitness
        | panic => rw [hc] at h; cases h
        | out => rw [hc] at h; cases h
      · exact ih _ _ _ _ _ _ hrt h hwitness
    | ClassBitmap cls =>
      have hwitness : ∃ w ∈ rest, (P.decode w).1 = Instr.Match := by
        obtain ⟨w, hw1, hw2⟩ := hw
        rcases List.mem_cons.mp hw1 with rfl | hw3
        · rw [hd] at hw2; cases hw2
        · exact ⟨w, hw3, hw2⟩
      have hrt : ∀ x ∈ rest, isTerminal (P.decode x).1 = true :=
        fun x hx => hterm x (List.mem_cons_of_mem ip hx)
      simp only at h
      split at h
      · cases hc : epsilonClosure P ⟨ip + sz, bw⟩ nextB curr fuel nextT with
        | ok es1 nextT1 => rw [hc] at h; exact ih _ _ _ _ _ _ hrt h hwitness
        | panic => rw [hc] at h; cases h
        | out => rw [hc] at h; cases h
      · exact ih _ _ _ _ _ _ hrt h hwitness
    | ClassRanges rs =>
      have hwitness : ∃ w ∈ rest, (P.decode w).1 = Instr.Match := by
        obtain ⟨w, hw1, hw2⟩ := hw
        rcases List.mem_cons.mp hw1 with rfl | hw3
        · rw [hd] at hw2; cases hw2
        · exact ⟨w, hw3, hw2⟩
      have hrt : ∀ x ∈ rest, isTerminal (P.decode x).1 = true :=
        fun x hx => hterm x (List.mem_cons_of_mem ip hx)
      simp only at h
      split at h
      · cases hc : epsilonClosure P ⟨ip + sz, bw⟩ nextB curr fuel nextT with
        | ok es1 nextT1 => rw [hc] at h; exact ih _ _ _ _ _ _ hrt h hwitness
        | panic => rw [hc] at h; cases h
        | out => rw [hc] at h; cases h
      · exact ih _ _ _ _ _ _ hrt h hwitness
    | SplitA o => exact absurd hipt (by simp [isTerminal])
    | SplitB o => exact absurd hipt (by simp [isTerminal])
    | SplitN os => exact absurd hipt (by simp [isTerminal])
    | Jump o => exact absurd hipt (by simp [isTerminal])
    | Start => exact absurd hipt (by simp [isTerminal])
    | End => exact absurd hipt (by simp [isTerminal])
    | WordBoundary => exact absurd hipt (by simp [isTerminal])
    | WordBoundaryNeg => exact absurd hipt (by simp [isTerminal])

/-- The thread iteration never reaches the `unreachable!()` dispatch arm when
every active thread decodes to a terminal instruction. -/
theorem stepThreads_ne_unreach {σ : Type} (P : Program) (bw : Bool) (fuel : Nat)
    (curr nextB : Option Nat) (pos : Nat) (F : σ → Nat → σ × Action) :
    ∀ (threads : List Nat) (s : σ) (calls nextT : List Nat),
      (∀ ip ∈ threads, isTerminal (P.decode ip).1 = true) →
      stepThreads P bw fuel curr nextB pos F threads s calls nextT ≠ StepRes.unreach := by
  intro threads
  induction threads with
  | nil => intro s calls nextT _ h; simp only [stepThreads] at h; cases h
  | cons ip rest ih =>
    intro s calls nextT hterm h
    have hipt := hterm ip (List.mem_cons_self ip rest)
    have hrt : ∀ x ∈ rest, isTerminal (P.decode x).1 = true :=
      fun x hx => hterm x (List.mem_cons_of_mem ip hx)
    rcases hd : P.decode ip with ⟨instr, sz⟩
    rw [hd] at hipt
    rw [stepThreads, hd] at h
    cases instr with
    | Match =>
      simp only at h
      rcases hF : F s pos with ⟨s1, a⟩
      rw [hF] at h
      cases a with
      | Stop => cases h
      | Continue => exact ih s1 (calls ++ [pos]) nextT hrt h
    | Eoi => cases h
    | AnyByte =>
      simp only at h
      split at h
      · cases hc : epsilonClosure P ⟨ip + sz, bw⟩ nextB curr fuel nextT with
        | ok es1 nextT1 => rw [hc] at h; exact ih _ _ _ hrt h
        | panic => rw [hc] at h; cases h
        | out => rw [hc] at h; cases h
      · exact ih _ _ _ hrt h
    | Byte b =>
      simp only at h
      split at h
      · cases hc : epsilonClosure P ⟨ip + sz, bw⟩ nextB curr fuel nextT with
        | ok es1 nextT1 => rw [hc] at h; exact ih _ _ _ hrt h
        | panic => rw [hc] at h; cases h
        | out => rw [hc] at h; cases h
      · exact ih _ _ _ hrt h
    | MaskedByte b m =>
      simp only at h
      split at h
      · cases hc : epsilonClosure P ⟨ip + sz, bw⟩ nextB curr fuel nextT with
        | ok es1 nextT1 => rw [hc] at h; exact ih _ _ _ hrt h
        | panic => rw [hc] at h; cases h
        | out => rw [hc] at h; cases h
      · exact ih _ _ _ hrt h
    | CaseInsensitiveChar b =>
      simp only at h
      split at h
      · cases hc : epsilonClosure P ⟨ip + sz, bw⟩ nextB curr fuel nextT with
        | ok es1 nextT1 => rw [hc] at h; exact ih _ _ _ hrt h
        | panic => rw [hc] at h; cases h
        | out => rw [hc] at h; cases h
      · exact ih _ _ _ hrt h
    | ClassBitmap cls =>
      simp only at h
      split at h
      · cases hc : epsilonClosure P ⟨ip + sz, bw⟩ nextB curr fuel nextT with
        | ok es1 nextT1 => rw [hc] at h; exact ih _ _ _ hrt h
        | panic => rw [hc] at h; cases h
        | out => rw [hc] at h; cases h
      · exact ih _ _ _ hrt h
    | ClassRanges rs =>
      simp only at h
      split at h
      · cases hc : epsilonClosure P ⟨ip + sz, bw⟩ nextB curr fuel nextT with
        | ok es1 nextT1 => rw [hc] at h; exact ih _ _ _ hrt h
        | panic => rw [hc] at h; cases h
        | out => rw [hc] at h; cases h
      · exact ih _ _ _ hrt h
    | SplitA o => exact absurd hipt (by simp [isTerminal])
    | SplitB o => exact absurd hipt (by simp [isTerminal])
    | SplitN os => exact absurd hipt (by simp [isTerminal])
    | Jump o => exact absurd hipt (by simp [isTerminal])
    | Start => exact absurd hipt (by simp [isTerminal])
    | End => exact absurd hipt (by simp [isTerminal])
    | WordBoundary => exact absurd hipt (by simp [isTerminal])
    | WordBoundaryNeg => exact absurd hipt (by simp [isTerminal])

/-! ### Lemmas about the main loop -/

/-- Soundness of the `try_match` main loop.  Under the loop invariants (active
threads terminal and duplicate free, recorded steps duplicate free and indexed
by position, positions with a `Match` thread already recorded in the trace),
a completed run satisfies: the callback trace only grows, at most
`max scanLimit 1` steps are executed, every executed step with a `Match`
thread has its position in the callback trace, every recorded thread list is
duplicate free, and at most `max (scanLimit - pos) 1` further input fetches
happen. -/
theorem vmLoop_ok_sound {σ : Type} (P : Program) (bw : Bool) (scanLimit fuel : Nat)
    (F : σ → Nat → σ × Action) :
    ∀ (n : Nat) (threads : List Nat) (curr : Option Nat) (fwdRest : List Nat)
      (pos fetches : Nat) (s : σ) (calls : List Nat) (steps : List (List Nat))
      (s' : σ) (calls' : List Nat) (steps' : List (List Nat)) (fetches' : Nat),
      scanLimit - pos ≤ n →
      (∀ ip ∈ threads, isTerminal (P.decode ip).1 = true) →
      threads.Nodup →
      (∀ T ∈ steps, T.Nodup) →
      steps.length = pos →
      (pos = 0 ∨ pos < scanLimit) →
      (∀ i T, steps[i]? = some T → (∃ ip ∈ T, (P.decode ip).1 = Instr.Match) → i ∈ calls) →
      vmLoop P bw scanLimit fuel F threads curr fwdRest pos fetches s calls steps =
        Outcome.ok s' calls' steps' fetches' →
      (∀ x, x ∈ calls → x ∈ calls') ∧
      steps'.length ≤ max scanLimit 1 ∧
      (∀ i T, steps'[i]? = some T → (∃ ip ∈ T, (P.decode ip).1 = Instr.Match) → i ∈ calls') ∧
      (∀ T ∈ steps', T.Nodup) ∧
      fetches' ≤ fetches + max (scanLimit - pos) 1 := by
  intro n
  induction n with
  | zero =>
    intro threads curr fwdRest pos fetches s calls steps s' calls' steps' fetches'
      hn hterm hnd hsnd hlen hpos hprop h
    rw [vmLoop] at h
    split at h
    · simp only [Outcome.ok.injEq] at h
      obtain ⟨-, rfl, rfl, rfl⟩ := h
      exact ⟨fun x hx => hx, by omega, hprop, hsnd, by omega⟩
    · cases hs : stepThreads P bw fuel curr fwdRest.head? pos F threads s calls [] with
      | cfail => rw [hs] at h; cases h
      | unreach => rw [hs] at h; cases h
      | ok s1 calls1 nextT =>
        rw [hs] at h
        simp only at h
        have hmono1 :=
          (stepThreads_sound P bw fuel curr fwdRest.head? pos F threads s calls []
            s1 calls1 nextT hs).1
        have hprop1 : ∀ i T, (steps ++ [threads])[i]? = some T →
            (∃ ip ∈ T, (P.decode ip).1 = Instr.Match) → i ∈ calls1 := by
          intro i T hT hm
          rcases Nat.lt_trichotomy i steps.length with hi | hi | hi
          · rw [List.getElem?_append_left hi] at hT
            exact hmono1 i (hprop i T hT hm)
          · subst hi
            rw [List.getElem?_concat_length] at hT
            obtain rfl : threads = T := by injection hT
            rw [hlen]
            exact stepThreads_match_called P bw fuel curr fwdRest.head? pos F threads
              s calls [] s1 calls1 nextT hterm hs hm
          · rw [List.getElem?_append_right (by omega)] at hT
            rw [List.getElem?_eq_none (by simp; omega)] at hT
            cases hT
        have hsnd1 : ∀ T ∈ steps ++ [threads], T.Nodup := by
          intro T hT
          rcases List.mem_append.mp hT with hT1 | hT1
          · exact hsnd T hT1
          · rw [List.mem_singleton] at hT1; subst hT1; exact hnd
        split at h
        · simp only [Outcome.ok.injEq] at h
          obtain ⟨-, rfl, rfl, rfl⟩ := h
          refine ⟨fun x hx => hmono1 x hx, ?_, hprop1, hsnd1, by omega⟩
          simp only [List.length_append, hlen, List.length_cons, List.length_nil]
          omega
        · next hguard => exact absurd hn (by omega)
  | succ n ihn =>
    intro threads curr fwdRest pos fetches s calls steps s' calls' steps' fetches'
      hn hterm hnd hsnd hlen hpos hprop h
    rw [vmLoop] at h
    split at h
    · simp only [Outcome.ok.injEq] at h
      obtain ⟨-, rfl, rfl, rfl⟩ := h
      exact ⟨fun x hx => hx, by omega, hprop, hsnd, by omega⟩
    · cases hs : stepThreads P bw fuel curr fwdRest.head? pos F threads s calls [] with
      | cfail => rw [hs] at h; cases h
      | unreach => rw [hs] at h; cases h
      | ok s1 calls1 nextT =>
        rw [hs] at h
        simp only at h
        obtain ⟨hmono1, hmem1, hnodup1⟩ :=
          stepThreads_sound P bw fuel curr fwdRest.head? pos F threads s calls []
            s1 calls1 nextT hs
        have hprop1 : ∀ i T, (steps ++ [threads])[i]? = some T →
            (∃ ip ∈ T, (P.decode ip).1 = Instr.Match) → i ∈ calls1 := by
          intro i T hT hm
          rcases Nat.lt_trichotomy i steps.length with hi | hi | hi
          · rw [List.getElem?_append_left hi] at hT
            exact hmono1 i (hprop i T hT hm)
          · subst hi
            rw [List.getElem?_concat_length] at hT
            obtain rfl : threads = T := by injection hT
            rw [hlen]
            exact stepThreads_match_called P bw fuel curr fwdRest.head? pos F threads
              s calls [] s1 calls1 nextT hterm hs hm
          · rw [List.getElem?_append_right (by omega)] at hT
            rw [List.getElem?_eq_none (by simp; omega)] at hT
            cases hT
        have hsnd1 : ∀ T ∈ steps ++ [threads], T.Nodup := by
          intro T hT
          rcases List.mem_append.mp hT with hT1 | hT1
          · exact hsnd T hT1
          · rw [List.mem_singleton] at hT1; subst hT1; exact hnd
        split at h
        · simp only [Outcome.ok.injEq] at h
          obtain ⟨-, rfl, rfl, rfl⟩ := h
          refine ⟨fun x hx => hmono1 x hx, ?_, hprop1, hsnd1, by omega⟩
          simp only [List.length_append, hlen, List.length_cons, List.length_nil]
          omega
        · next hguard =>
          obtain ⟨m1, m2, m3, m4, m5⟩ :=
            ihn nextT fwdRest.head? fwdRest.tail (pos + 1) (fetches + 1) s1 calls1
              (steps ++ [threads]) s' calls' steps' fetches'
              (by omega)
              (fun x hx => ((hmem1 x hx).resolve_left (by simp)))
              (hnodup1 List.nodup_nil)
              hsnd1
              (by rw [List.length_append, hlen]; simp)
              (Or.inr (by omega))
              hprop1 h
          exact ⟨fun x hx => m1 x (hmono1 x hx), m2, m3, m4, by omega⟩

/-- The main loop never hits the `unreachable!()` arm when the active threads
are terminal (as they are whenever they come from the epsilon closure). -/
theorem vmLoop_ne_unreach {σ : Type} (P : Program) (bw : Bool) (scanLimit fuel : Nat)
    (F : σ → Nat → σ × Action) :
    ∀ (n : Nat) (threads : List Nat) (curr : Option Nat) (fwdRest : List Nat)
      (pos fetches : Nat) (s : σ) (calls : List Nat) (steps : List (List Nat)),
      scanLimit - pos ≤ n →
      (∀ ip ∈ threads, isTerminal (P.decode ip).1 = true) →
      vmLoop P bw scanLimit fuel F threads curr fwdRest pos fetches s calls steps ≠
        Outcome.unreach := by
  intro n
  induction n with
  | zero =>
    intro threads curr fwdRest pos fetches s calls steps hn hterm h
    rw [vmLoop] at h
    split at h
    · cases h
    · cases hs : stepThreads P bw fuel curr fwdRest.head? pos F threads s calls [] with
      | cfail => rw [hs] at h; cases h
      | unreach => exact stepThreads_ne_unreach P bw fuel curr fwdRest.head? pos F threads s calls [] hterm hs
      | ok s1 calls1 nextT =>
        rw [hs] at h
        simp only at h
        split at h
        · cases h
        · next hguard => exact absurd hn (by omega)
  | succ n ihn =>
    intro threads curr fwdRest pos fetches s calls steps hn hterm h
    rw [vmLoop] at h
    split at h
    · cases h
    · cases hs : stepThreads P bw fuel curr fwdRest.head? pos F threads s calls [] with
      | cfail => rw [hs] at h; cases h
      | unreach => exact stepThreads_ne_unreach P bw fuel curr fwdRest.head? pos F threads s calls [] hterm hs
      | ok s1 calls1 nextT =>
        rw [hs] at h
        simp only at h
        obtain ⟨-, hmem1, -⟩ :=
          stepThreads_sound P bw fuel curr fwdRest.head? pos F threads s calls []
            s1 calls1 nextT hs
        split at h
        · cases h
        · exact ihn nextT fwdRest.head? fwdRest.tail (pos + 1) (fetches + 1) s1 calls1
            (steps ++ [threads]) (by omega)
            (fun x hx => ((hmem1 x hx).resolve_left (by simp))) h

/-! ### Termination of the epsilon closure -/

/-- A duplicate-free list of naturals below `L` has at most `L` elements. -/
theorem nodup_lt_length_le (L : Nat) (l : List Nat) (h : l.Nodup)
    (hl : ∀ x ∈ l, x < L) : l.length ≤ L := by
  have h1 : l.toFinset ⊆ Finset.range L := by
    intro x hx
    rw [List.mem_toFinset] at hx
    exact Finset.mem_range.mpr (hl x hx)
  have h2 := Finset.card_le_card h1
  rwa [List.toFinset_card_of_nodup h, Finset.card_range] at h2

/-- Main induction for closure termination: with a rank function that
decreases along every non-split epsilon edge, an `L` that bounds all
reachable offsets and a `K` that bounds every push weight, the closure loop
completes within fuel equal to the measure. -/
theorem closureLoop_term_aux (P : Program) (bw : Bool) (curr prev : Option Nat)
    (rank : Nat → Nat) (L K : Nat)
    (hsuccs : ∀ ip, ip < L → ∃ ts, instrSuccs P ip = some ts ∧ ∀ t ∈ ts, t < L)
    (hrank : ∀ ip, ip < L → isSplit (P.decode ip).1 = false →
      ∀ ts, instrSuccs P ip = some ts → ∀ t ∈ ts, rank t < rank ip)
    (hK : ∀ ip, ip < L → pushCost P rank ip < K) :
    ∀ (n : Nat) (stack es cl : List Nat),
      (∀ x ∈ stack, x < L) → es.Nodup → (∀ x ∈ es, x < L) →
      closureMeasure rank K L stack es ≤ n →
      ∃ es' cl', closureLoop P bw curr prev n stack es cl = ClosureOut.ok es' cl' := by
  intro n
  induction n with
  | zero =>
    intro stack es cl hstackL hesnd hesL hM
    cases stack with
    | nil => exact ⟨es, cl, rfl⟩
    | cons ip rest =>
      exfalso
      unfold closureMeasure at hM
      simp only [List.map_cons, List.sum_cons] at hM
      omega
  | succ n ih =>
    intro stack es cl hstackL hesnd hesL hM
    cases stack with
    | nil => exact ⟨es, cl, rfl⟩
    | cons ip rest =>
      have hipL : ip < L := hstackL ip (List.mem_cons_self ip rest)
      have hrestL : ∀ x ∈ rest, x < L := fun x hx => hstackL x (List.mem_cons_of_mem ip hx)
      obtain ⟨ts, hts, htsL⟩ := hsuccs ip hipL
      rcases hd : P.decode ip with ⟨instr, sz⟩
      have popDec : closureMeasure rank K L rest es <
          closureMeasure rank K L (ip :: rest) es := by
        unfold closureMeasure
        simp only [List.map_cons, List.sum_cons]
        exact Nat.add_lt_add_left (by omega) _
      have popRun : ∀ cl0 : List Nat, ∃ es' cl',
          closureLoop P bw curr prev n rest es cl0 = ClosureOut.ok es' cl' :=
        fun cl0 => ih rest es cl0 hrestL hesnd hesL (by omega)
      have pushRun : ∀ t : Nat, t < L → rank t < rank ip → ∀ cl0 : List Nat,
          ∃ es' cl', closureLoop P bw curr prev n (t :: rest) es cl0 =
            ClosureOut.ok es' cl' := by
        intro t htL htr cl0
        have hdec : closureMeasure rank K L (t :: rest) es <
            closureMeasure rank K L (ip :: rest) es := by
          unfold closureMeasure
          simp only [List.map_cons, List.sum_cons]
          exact Nat.add_lt_add_left (by omega) _
        apply ih (t :: rest) es cl0 ?_ hesnd hesL (by omega)
        intro x hx
        rcases List.mem_cons.mp hx with rfl | hx1
        · exact htL
        · exact hrestL x hx1
      have splitSetup : es.contains ip = false →
          ip ∉ es ∧ (es ++ [ip]).Nodup ∧ (∀ x ∈ es ++ [ip], x < L) ∧
          K * (L - es.length) = K * (L - (es ++ [ip]).length) + K := by
        intro hc
        have hni : ip ∉ es := by
          intro hm
          rw [← List.elem_iff (α := Nat)] at hm
          rw [List.contains] at hc
          rw [hc] at hm
          cases hm
        have hnd1 : (es ++ [ip]).Nodup := by
          rw [List.nodup_append]
          refine ⟨hesnd, List.nodup_singleton ip, ?_⟩
          intro x hx hx1
          rw [List.mem_singleton] at hx1
          subst hx1
          exact hni hx
        have hL1 : ∀ x ∈ es ++ [ip], x < L := by
          intro x hx
          rcases List.mem_append.mp hx with hx1 | hx1
          · exact hesL x hx1
          · rw [List.mem_singleton] at hx1; subst hx1; exact hipL
        have hlen1 : (es ++ [ip]).length = es.length + 1 := by simp
        have hlen2 : es.length + 1 ≤ L := by
          rw [← hlen1]
          exact nodup_lt_length_le L (es ++ [ip]) hnd1 hL1
        refine ⟨hni, hnd1, hL1, ?_⟩
        rw [hlen1]
        have h2 : L - es.length = (L - (es.length + 1)) + 1 := by omega
        rw [h2, Nat.mul_succ]
      cases instr with
      | AnyByte =>
        obtain ⟨es', cl', hrun⟩ := popRun (pushUnique cl ip)
        exact ⟨es', cl', by simp only [closureLoop, hd]; exact hrun⟩
      | Byte b =>
        obtain ⟨es', cl', hrun⟩ := popRun (pushUnique cl ip)
        exact ⟨es', cl', by simp only [closureLoop, hd]; exact hrun⟩
      | MaskedByte b m =>
        obtain ⟨es', cl', hrun⟩ := popRun (pushUnique cl ip)
        exact ⟨es', cl', by simp only [closureLoop, hd]; exact hrun⟩
      | CaseInsensitiveChar b =>
        obtain ⟨es', cl', hrun⟩ := popRun (pushUnique cl ip)
        exact ⟨es', cl', by simp only [closureLoop, hd]; exact hrun⟩
      | ClassBitmap cls =>
        obtain ⟨es', cl', hrun⟩ := popRun (pushUnique cl ip)
        exact ⟨es', cl', by simp only [closureLoop, hd]; exact hrun⟩
      | ClassRanges rs =>
        obtain ⟨es', cl', hrun⟩ := popRun (pushUnique cl ip)
        exact ⟨es', cl', by simp only [closureLoop, hd]; exact hrun⟩
      | Match =>
        obtain ⟨es', cl', hrun⟩ := popRun (pushUnique cl ip)
        exact ⟨es', cl', by simp only [closureLoop, hd]; exact hrun⟩
      | Eoi =>
        obtain ⟨es', cl', hrun⟩ := popRun cl
        exact ⟨es', cl', by simp only [closureLoop, hd]; exact hrun⟩
      | SplitA o =>
        cases hc : es.contains ip with
        | true =>
          obtain ⟨es', cl', hrun⟩ := popRun cl
          refine ⟨es', cl', ?_⟩
          simp only [closureLoop, hd, hc, if_pos]
          exact hrun
        | false =>
          obtain ⟨hni, hnd1, hL1, hKs⟩ := splitSetup hc
          have hta : ∃ t, addOffset ip o = some t ∧ ts = [ip + sz, t] := by
            unfold instrSuccs at hts
            rw [hd] at hts
            simp only at hts
            cases ha : addOffset ip o with
            | none => rw [ha] at hts; cases hts
            | some t =>
              rw [ha] at hts
              simp at hts
              exact ⟨t, rfl, hts.symm⟩
          obtain ⟨t, ha, rfl⟩ := hta
          have htL : t < L := htsL t (by simp)
          have hfL : ip + sz < L := htsL (ip + sz) (by simp)
          have hpc : pushCost P rank ip = ([ip + sz, t].map fun x => rank x + 1).sum := by
            unfold pushCost
            rw [hts]
          have hpcK := hK ip hipL
          rw [hpc] at hpcK
          simp only [List.map_cons, List.map_nil, List.sum_cons, List.sum_nil] at hpcK
          have hdec : closureMeasure rank K L ((ip + sz) :: t :: rest) (es ++ [ip]) <
              closureMeasure rank K L (ip :: rest) es := by
            unfold closureMeasure
            have hlen1 : (es ++ [ip]).length = es.length + 1 := by simp
            rw [hlen1]
            simp only [List.map_cons, List.sum_cons]
            rw [show K * (L - es.length) = K * (L - (es.length + 1)) + K by
              rw [hKs]; simp]
            omega
          obtain ⟨es', cl', hrun⟩ :=
            ih ((ip + sz) :: t :: rest) (es ++ [ip]) cl
              (by
                intro x hx
                rcases List.mem_cons.mp hx with rfl | hx1
                · exact hfL
                rcases List.mem_cons.mp hx1 with rfl | hx2
                · exact htL
                · exact hrestL x hx2)
              hnd1 hL1 (by omega)
          refine ⟨es', cl', ?_⟩
          simp only [closureLoop, hd, hc, Bool.false_eq_true, if_neg, ha]
          exact hrun
      | SplitB o =>
        cases hc : es.contains ip with
        | true =>
          obtain ⟨es', cl', hrun⟩ := popRun cl
          refine ⟨es', cl', ?_⟩
          simp only [closureLoop, hd, hc, if_pos]
          exact hrun
        | false =>
          obtain ⟨hni, hnd1, hL1, hKs⟩ := splitSetup hc
          have hta : ∃ t, addOffset ip o = some t ∧ ts = [t, ip + sz] := by
            unfold instrSuccs at hts
            rw [hd] at hts
            simp only at hts
            cases ha : addOffset ip o with
            | none => rw [ha] at hts; cases hts
            | some t =>
              rw [ha] at hts
              simp at hts
              exact ⟨t, rfl, hts.symm⟩
          obtain ⟨t, ha, rfl⟩ := hta
          have htL : t < L := htsL t (by simp)
          have hfL : ip + sz < L := htsL (ip + sz) (by simp)
          have hpc : pushCost P rank ip = ([t, ip + sz].map fun x => rank x + 1).sum := by
            unfold pushCost
            rw [hts]
          have hpcK := hK ip hipL
          rw [hpc] at hpcK
          simp only [List.map_cons, List.map_nil, List.sum_cons, List.sum_nil] at hpcK
          have hdec : closureMeasure rank K L (t :: (ip + sz) :: rest) (es ++ [ip]) <
              closureMeasure rank K L (ip :: rest) es := by
            unfold closureMeasure
            have hlen1 : (es ++ [ip]).length = es.length + 1 := by simp
            rw [hlen1]
            simp only [List.map_cons, List.sum_cons]
            rw [show K * (L - es.length) = K * (L - (es.length + 1)) + K by
              rw [hKs]; simp]
            omega
          obtain ⟨es', cl', hrun⟩ :=
            ih (t :: (ip + sz) :: rest) (es ++ [ip]) cl
              (by
                intro x hx
                rcases List.mem_cons.mp hx with rfl | hx1
                · exact htL
                rcases List.mem_cons.mp hx1 with rfl | hx2
                · exact hfL
                · exact hrestL x hx2)
              hnd1 hL1 (by omega)
          refine ⟨es', cl', ?_⟩
          simp only [closureLoop, hd, hc, Bool.false_eq_true, if_neg, ha]
          exact hrun
      | SplitN os =>
        cases hc : es.contains ip with
        | true =>
          obtain ⟨es', cl', hrun⟩ := popRun cl
          refine ⟨es', cl', ?_⟩
          simp only [closureLoop, hd, hc, if_pos]
          exact hrun
        | false =>
          obtain ⟨hni, hnd1, hL1, hKs⟩ := splitSetup hc
          have hta : os.mapM (addOffset ip) = some ts := by
            unfold instrSuccs at hts
            rw [hd] at hts
            simp only at hts
            exact hts
          have hpc : pushCost P rank ip = (ts.map fun t => rank t + 1).sum := by
            unfold pushCost
            rw [hts]
          have hpcK := hK ip hipL
          rw [hpc] at hpcK
          have hdec : closureMeasure rank K L (ts ++ rest) (es ++ [ip]) <
              closureMeasure rank K L (ip :: rest) es := by
            unfold closureMeasure
            have hlen1 : (es ++ [ip]).length = es.length + 1 := by simp
            rw [hlen1]
            simp only [List.map_cons, List.sum_cons, List.map_append, List.sum_append]
            rw [show K * (L - es.length) = K * (L - (es.length + 1)) + K by
              rw [hKs]; simp]
            omega
          obtain ⟨es', cl', hrun⟩ :=
            ih (ts ++ rest) (es ++ [ip]) cl
              (by
                intro x hx
                rcases List.mem_append.mp hx with hx1 | hx1
                · exact htsL x hx1
                · exact hrestL x hx1)
              hnd1 hL1 (by omega)
          refine ⟨es', cl', ?_⟩
          simp only [closureLoop, hd, hc, Bool.false_eq_true, if_neg, hta]
          exact hrun
      | Jump o =>
        have hta : ∃ t, addOffset ip o = some t ∧ ts = [t] := by
          unfold instrSuccs at hts
          rw [hd] at hts
          simp only at hts
          cases ha : addOffset ip o with
          | none => rw [ha] at hts; cases hts
          | some t =>
            rw [ha] at hts
            simp at hts
            exact ⟨t, rfl, hts.symm⟩
        obtain ⟨t, ha, rfl⟩ := hta
        have htr : rank t < rank ip :=
          hrank ip hipL (by rw [hd]; rfl) [t] hts t (by simp)
        obtain ⟨es', cl', hrun⟩ := pushRun t (htsL t (by simp)) htr cl
        refine ⟨es', cl', ?_⟩
        simp only [closureLoop, hd, ha]
        exact hrun
      | Start =>
        have hts2 : ts = [ip + sz] := by
          unfold instrSuccs at hts
          rw [hd] at hts
          simp only [Option.some.injEq] at hts
          exact hts.symm
        subst hts2
        have htr : rank (ip + sz) < rank ip :=
          hrank ip hipL (by rw [hd]; rfl) [ip + sz] hts (ip + sz) (by simp)
        have hstep : closureLoop P bw curr prev (n + 1) (ip :: rest) es cl =
            (if bw = true then
              (if curr.isNone = true then
                closureLoop P bw curr prev n ((ip + sz) :: rest) es cl
               else closureLoop P bw curr prev n rest es cl)
             else
              (if prev.isNone = true then
                closureLoop P bw curr prev n ((ip + sz) :: rest) es cl
               else closureLoop P bw curr prev n rest es cl)) := by
          simp only [closureLoop, hd]
        rcases Bool.dichotomy bw with hbw | hbw
        · cases hpn : prev.isNone with
          | true =>
            obtain ⟨es', cl', hrun⟩ := pushRun (ip + sz) (htsL _ (by simp)) htr cl
            exact ⟨es', cl',
              by rw [hstep, if_neg (by simp [hbw]), if_pos hpn]; exact hrun⟩
          | false =>
            obtain ⟨es', cl', hrun⟩ := popRun cl
            exact ⟨es', cl',
              by rw [hstep, if_neg (by simp [hbw]), if_neg (by simp [hpn])]; exact hrun⟩
        · cases hcn : curr.isNone with
          | true =>
            obtain ⟨es', cl', hrun⟩ := pushRun (ip + sz) (htsL _ (by simp)) htr cl
            exact ⟨es', cl', by rw [hstep, if_pos hbw, if_pos hcn]; exact hrun⟩
          | false =>
            obtain ⟨es', cl', hrun⟩ := popRun cl
            exact ⟨es', cl',
              by rw [hstep, if_pos hbw, if_neg (by simp [hcn])]; exact hrun⟩
      | End =>
        have hts2 : ts = [ip + sz] := by
          unfold instrSuccs at hts
          rw [hd] at hts
          simp only [Option.some.injEq] at hts
          exact hts.symm
        subst hts2
        have htr : rank (ip + sz) < rank ip :=
          hrank ip hipL (by rw [hd]; rfl) [ip + sz] hts (ip + sz) (by simp)
        have hstep : closureLoop P bw curr prev (n + 1) (ip :: rest) es cl =
            (if bw = true then
              (if prev.isNone = true then
                closureLoop P bw curr prev n ((ip + sz) :: rest) es cl
               else closureLoop P bw curr prev n rest es cl)
             else
              (if curr.isNone = true then
                closureLoop P bw curr prev n ((ip + sz) :: rest) es cl
               else closureLoop P bw curr prev n rest es cl)) := by
          simp only [closureLoop, hd]
        rcases Bool.dichotomy bw with hbw | hbw
        · cases hcn : curr.isNone with
          | true =>
            obtain ⟨es', cl', hrun⟩ := pushRun (ip + sz) (htsL _ (by simp)) htr cl
            exact ⟨es', cl',
              by rw [hstep, if_neg (by simp [hbw]), if_pos hcn]; exact hrun⟩
          | false =>
            obtain ⟨es', cl', hrun⟩ := popRun cl
            exact ⟨es', cl',
              by rw [hstep, if_neg (by simp [hbw]), if_neg (by simp [hcn])]; exact hrun⟩
        · cases hpn : prev.isNone with
          | true =>
            obtain ⟨es', cl', hrun⟩ := pushRun (ip + sz) (htsL _ (by simp)) htr cl
            exact ⟨es', cl', by rw [hstep, if_pos hbw, if_pos hpn]; exact hrun⟩
          | false =>
            obtain ⟨es', cl', hrun⟩ := popRun cl
            exact ⟨es', cl',
              by rw [hstep, if_pos hbw, if_neg (by simp [hpn])]; exact hrun⟩
      | WordBoundary =>
        have hts2 : ts = [ip + sz] := by
          unfold instrSuccs at hts
          rw [hd] at hts
          simp only [Option.some.injEq] at hts
          exact hts.symm
        subst hts2
        have htr : rank (ip + sz) < rank ip :=
          hrank ip hipL (by rw [hd]; rfl) [ip + sz] hts (ip + sz) (by simp)
        have hstep : closureLoop P bw curr prev (n + 1) (ip :: rest) es cl =
            (if wbMatch prev curr = true then
              closureLoop P bw curr prev n ((ip + sz) :: rest) es cl
             else closureLoop P bw curr prev n rest es cl) := by
          simp only [closureLoop, hd]
        cases hwb : wbMatch prev curr with
        | true =>
          obtain ⟨es', cl', hrun⟩ := pushRun (ip + sz) (htsL _ (by simp)) htr cl
          exact ⟨es', cl', by rw [hstep, if_pos hwb]; exact hrun⟩
        | false =>
          obtain ⟨es', cl', hrun⟩ := popRun cl
          exact ⟨es', cl', by rw [hstep, if_neg (by simp [hwb])]; exact hrun⟩
      | WordBoundaryNeg =>
        have hts2 : ts = [ip + sz] := by
          unfold instrSuccs at hts
          rw [hd] at hts
          simp only [Option.some.injEq] at hts
          exact hts.symm
        subst hts2
        have htr : rank (ip + sz) < rank ip :=
          hrank ip hipL (by rw [hd]; rfl) [ip + sz] hts (ip + sz) (by simp)
        have hstep : closureLoop P bw curr prev (n + 1) (ip :: rest) es cl =
            (if (!wbMatch prev curr) = true then
              closureLoop P bw curr prev n ((ip + sz) :: rest) es cl
             else closureLoop P bw curr prev n rest es cl) := by
          simp only [closureLoop, hd]
        cases hwb : wbMatch prev curr with
        | true =>
          obtain ⟨es', cl', hrun⟩ := popRun cl
          exact ⟨es', cl', by rw [hstep, if_neg (by simp [hwb])]; exact hrun⟩
        | false =>
          obtain ⟨es', cl', hrun⟩ := pushRun (ip + sz) (htsL _ (by simp)) htr cl
          exact ⟨es', cl', by rw [hstep, if_pos (by simp [hwb])]; exact hrun⟩

/-! ### Single-step characterisations of the closure loop -/

/-- One closure step on a terminal instruction: append (deduplicated) and
continue with the rest of the stack. -/
theorem closureLoop_terminal_step (P : Program) (bw : Bool) (curr prev : Option Nat)
    (n ip : Nat) (rest es cl : List Nat)
    (hterm : isTerminal (P.decode ip).1 = true) :
    closureLoop P bw curr prev (n + 1) (ip :: rest) es cl =
      closureLoop P bw curr prev n rest es (pushUnique cl ip) := by
  rcases hd : P.decode ip with ⟨instr, sz⟩
  rw [hd] at hterm
  cases instr <;>
    first
      | (exfalso; revert hterm; simp [isTerminal]; done)
      | simp only [closureLoop, hd]

/-- One closure step on a `Start` anchor: push the fallthrough iff the scan
is at its origin (`prev` absent going forward, `curr` absent going backward). -/
theorem closureLoop_start_step (P : Program) (bw : Bool) (curr prev : Option Nat)
    (n ip sz : Nat) (rest es cl : List Nat)
    (hd : P.decode ip = (Instr.Start, sz)) :
    closureLoop P bw curr prev (n + 1) (ip :: rest) es cl =
      (if (if bw then curr.isNone else prev.isNone) = true
       then closureLoop P bw curr prev n ((ip + sz) :: rest) es cl
       else closureLoop P bw curr prev n rest es cl) := by
  simp only [closureLoop, hd]
  cases bw <;> simp

/-- One closure step on an `End` anchor: push the fallthrough iff the scan
is at its terminus (`curr` absent going forward, `prev` absent going
backward). -/
theorem closureLoop_end_step (P : Program) (bw : Bool) (curr prev : Option Nat)
    (n ip sz : Nat) (rest es cl : List Nat)
    (hd : P.decode ip = (Instr.End, sz)) :
    closureLoop P bw curr prev (n + 1) (ip :: rest) es cl =
      (if (if bw then prev.isNone else curr.isNone) = true
       then closureLoop P bw curr prev n ((ip + sz) :: rest) es cl
       else closureLoop P bw curr prev n rest es cl) := by
  simp only [closureLoop, hd]
  cases bw <;> simp

/-- One closure step on a `WordBoundary`: push the fallthrough iff the
word-ness of the two neighbouring bytes differs. -/
theorem closureLoop_wb_step (P : Program) (bw : Bool) (curr prev : Option Nat)
    (n ip sz : Nat) (rest es cl : List Nat)
    (hd : P.decode ip = (Instr.WordBoundary, sz)) :
    closureLoop P bw curr prev (n + 1) (ip :: rest) es cl =
      (if wbMatch prev curr = true
       then closureLoop P bw curr prev n ((ip + sz) :: rest) es cl
       else closureLoop P bw curr prev n rest es cl) := by
  simp only [closureLoop, hd]

/-- One closure step on a `WordBoundaryNeg`: the negation of the
word-boundary test. -/
theorem closureLoop_wbneg_step (P : Program) (bw : Bool) (curr prev : Option Nat)
    (n ip sz : Nat) (rest es cl : List Nat)
    (hd : P.decode ip = (Instr.WordBoundaryNeg, sz)) :
    closureLoop P bw curr prev (n + 1) (ip :: rest) es cl =
      (if wbMatch prev curr = true
       then closureLoop P bw curr prev n rest es cl
       else closureLoop P bw curr prev n ((ip + sz) :: rest) es cl) := by
  simp only [closureLoop, hd]
  cases hwb : wbMatch prev curr <;> simp

/-- One closure step on a not-yet-executed `SplitA`: record the split and
push the offset target first, then the fallthrough — so the fallthrough is
on top of the stack and is explored first. -/
theorem closureLoop_splitA_step (P : Program) (bw : Bool) (curr prev : Option Nat)
    (n ip sz : Nat) (o : Int) (t : Nat) (rest es cl : List Nat)
    (hd : P.decode ip = (Instr.SplitA o, sz)) (hnc : es.contains ip = false)
    (ha : addOffset ip o = some t) :
    closureLoop P bw curr prev (n + 1) (ip :: rest) es cl =
      closureLoop P bw curr prev n ((ip + sz) :: t :: rest) (es ++ [ip]) cl := by
  simp only [closureLoop, hd, hnc, ha]
  simp

/-- One closure step on a not-yet-executed `SplitB`: record the split and
push the fallthrough first, then the offset target — so the offset target is
explored first. -/
theorem closureLoop_splitB_step (P : Program) (bw : Bool) (curr prev : Option Nat)
    (n ip sz : Nat) (o : Int) (t : Nat) (rest es cl : List Nat)
    (hd : P.decode ip = (Instr.SplitB o, sz)) (hnc : es.contains ip = false)
    (ha : addOffset ip o = some t) :
    closureLoop P bw curr prev (n + 1) (ip :: rest) es cl =
      closureLoop P bw curr prev n (t :: (ip + sz) :: rest) (es ++ [ip]) cl := by
  simp only [closureLoop, hd, hnc, ha]
  simp

/-- One closure step on a not-yet-executed `SplitN`: record the split and push
the listed targets in reverse, so they are explored in listed order. -/
theorem closureLoop_splitN_step (P : Program) (bw : Bool) (curr prev : Option Nat)
    (n ip sz : Nat) (os : List Int) (ts : List Nat) (rest es cl : List Nat)
    (hd : P.decode ip = (Instr.SplitN os, sz)) (hnc : es.contains ip = false)
    (ha : os.mapM (addOffset ip) = some ts) :
    closureLoop P bw curr prev (n + 1) (ip :: rest) es cl =
      closureLoop P bw curr prev n (ts ++ rest) (es ++ [ip]) cl := by
  simp only [closureLoop, hd, hnc, ha]
  simp

/-- The jump-to-itself program never completes its epsilon closure: the
pending stack is `[0]` forever. -/
theorem progJumpLoop_stuck :
    ∀ (n : Nat) (es cl : List Nat),
      closureLoop progJumpLoop false none none n [0] es cl = ClosureOut.out := by
  intro n
  induction n with
  | zero => intro es cl; rfl
  | succ n ih =>
    intro es cl
    have h0 : progJumpLoop.decode 0 = (Instr.Jump 0, 1) := rfl
    have ha : addOffset 0 0 = some 0 := by simp [addOffset]
    simp only [closureLoop, h0, ha]
    exact ih es cl

/-! ### Concrete runs used by witnesses and counterexamples -/

/-- The pattern-`a` program on input `"a"`: one callback at length 1, two
simulation steps, three reads. -/
theorem progByteMatch_run :
    tryMatch progByteMatch ⟨0, false⟩ DEFAULT_SCAN_LIMIT 5 [97] [] alwaysContinue () =
      Outcome.ok () [1] [[0], [2]] 3 := by
  simp [tryMatch, vmLoop, stepThreads, epsilonClosure, closureLoop, progByteMatch,
    instrByteTest, pushUnique, addOffset, alwaysContinue, DEFAULT_SCAN_LIMIT]

/-- The `AnyByte` program with `scan_limit = 0` on a three-byte input: no
callback, one simulation step, and two reads from the forward input. -/
theorem progAnyByte_run :
    tryMatch progAnyByte ⟨0, false⟩ 0 5 [97, 98, 99] [] alwaysContinue () =
      Outcome.ok () [] [[0]] 2 := by
  simp [tryMatch, vmLoop, stepThreads, epsilonClosure, closureLoop, progAnyByte,
    instrByteTest, pushUnique, addOffset, alwaysContinue]

/-! ### The claims -/

/-- C1: for every program, start location, finite forward input, backward
input and callback, a completed `try_match` run executes at most
`max scan_limit 1` simulation steps (so every step position lies in
`[0, scan_limit]`), and `on_match` is invoked with argument `p` for every
executed step `p` whose active-thread list contains an offset decoding to a
`Match` instruction — in particular a zero-length match is reported as `0`
at step `0`. -/
theorem try_match_reports_match_positions {σ : Type} (P : Program)
    (start : CodeLoc) (scanLimit fuel : Nat) (fwd bck : List Nat)
    (F : σ → Nat → σ × Action) (s0 : σ) (s : σ) (calls : List Nat)
    (steps : List (List Nat)) (fetches : Nat)
    (h : tryMatch P start scanLimit fuel fwd bck F s0 = Outcome.ok s calls steps fetches) :
    steps.length ≤ max scanLimit 1 ∧
    ∀ p T, steps[p]? = some T → (∃ ip ∈ T, (P.decode ip).1 = Instr.Match) →
      p ∈ calls := by
  unfold tryMatch at h
  cases hc : epsilonClosure P start fwd.head? bck.head? fuel [] with
  | panic => rw [hc] at h; cases h
  | out => rw [hc] at h; cases h
  | ok es0 threads =>
    rw [hc] at h
    simp only at h
    obtain ⟨hmem, hnd, -⟩ := closureLoop_sound P start.backwards fwd.head? bck.head? fuel
      [start.location] [] [] es0 threads hc
    have hterm : ∀ ip ∈ threads, isTerminal (P.decode ip).1 = true := by
      intro ip hip
      rcases hmem ip hip with h1 | h1
      · cases h1
      · exact h1
    obtain ⟨-, h2, h3, -, -⟩ := vmLoop_ok_sound P start.backwards scanLimit fuel F
      scanLimit threads fwd.head? fwd.tail 0 1 s0 [] [] s calls steps fetches
      (by omega) hterm (hnd List.nodup_nil) (by intro T hT; cases hT) rfl (Or.inl rfl)
      (by intro i T hT; simp at hT) h
    exact ⟨h2, h3⟩

/-- Witness for C1: in the concrete run of the pattern-`a` program on input
`"a"`, step 1 has a `Match` thread, and position 1 is indeed in the callback
trace. -/
theorem try_match_reports_match_positions_witness : (1 : Nat) ∈ ([1] : List Nat) := by
  have h := try_match_reports_match_positions progByteMatch ⟨0, false⟩
    DEFAULT_SCAN_LIMIT 5 [97] [] alwaysContinue () () [1] [[0], [2]] 3 progByteMatch_run
  exact h.2 1 [2] rfl ⟨2, by simp, rfl⟩

/-- C2 (code bug): `Action::Stop` only breaks the inner thread loop, not the
outer scan loop.  In this run the callback returns `Stop` on its very first
invocation (at position 0), yet `try_match` invokes it again at position 1:
the callback trace is `[0, 1]`. -/
theorem stop_then_further_callback :
    alwaysStop () 0 = ((), Action.Stop) ∧
    tryMatch progSplitMatch ⟨0, false⟩ DEFAULT_SCAN_LIMIT 10 [97, 97] [] alwaysStop () =
      Outcome.ok () [0, 1] [[2, 4], [4]] 3 := by
  constructor
  · rfl
  · simp [tryMatch, vmLoop, stepThreads, epsilonClosure, closureLoop, progSplitMatch,
      instrByteTest, pushUnique, addOffset, alwaysStop, DEFAULT_SCAN_LIMIT]

/-- C3 counterexample: with `scan_limit = 0` the VM performs two
`fwd_input.next()` calls on a three-byte input — more than
`scan_limit + 1 = 1` — refuting the claimed bound at this input. -/
theorem scan_reads_exceed_limit_plus_one :
    tryMatch progAnyByte ⟨0, false⟩ 0 5 [97, 98, 99] [] alwaysContinue () =
      Outcome.ok () [] [[0]] 2 ∧ ¬(2 ≤ 0 + 1) := by
  exact ⟨progAnyByte_run, by decide⟩

/-- C3 (amended): for every invocation of `try_match` the number of bytes
requested from the forward input is at most `max scan_limit 1 + 1`; for
`scan_limit ≥ 1` this is the spec's `scan_limit + 1` bound. -/
theorem try_match_fetch_bound {σ : Type} (P : Program)
    (start : CodeLoc) (scanLimit fuel : Nat) (fwd bck : List Nat)
    (F : σ → Nat → σ × Action) (s0 : σ) (s : σ) (calls : List Nat)
    (steps : List (List Nat)) (fetches : Nat)
    (h : tryMatch P start scanLimit fuel fwd bck F s0 = Outcome.ok s calls steps fetches) :
    fetches ≤ max scanLimit 1 + 1 := by
  unfold tryMatch at h
  cases hc : epsilonClosure P start fwd.head? bck.head? fuel [] with
  | panic => rw [hc] at h; cases h
  | out => rw [hc] at h; cases h
  | ok es0 threads =>
    rw [hc] at h
    simp only at h
    obtain ⟨hmem, hnd, -⟩ := closureLoop_sound P start.backwards fwd.head? bck.head? fuel
      [start.location] [] [] es0 threads hc
    have hterm : ∀ ip ∈ threads, isTerminal (P.decode ip).1 = true := by
      intro ip hip
      rcases hmem ip hip with h1 | h1
      · cases h1
      · exact h1
    obtain ⟨-, -, -, -, h5⟩ := vmLoop_ok_sound P start.backwards scanLimit fuel F
      scanLimit threads fwd.head? fwd.tail 0 1 s0 [] [] s calls steps fetches
      (by omega) hterm (hnd List.nodup_nil) (by intro T hT; cases hT) rfl (Or.inl rfl)
      (by intro i T hT; simp at hT) h
    omega

/-- Witness for C3 (amended): the `scan_limit = 0` run reads 2 bytes, within
the amended bound `max 0 1 + 1 = 2`. -/
theorem try_match_fetch_bound_witness : (2 : Nat) ≤ max 0 1 + 1 :=
  try_match_fetch_bound progAnyByte ⟨0, false⟩ 0 5 [97, 98, 99] [] alwaysContinue ()
    () [] [[0]] 2 progAnyByte_run

/-- C4 (code bug): `epsilon_closure` clears `executed_splits` at the start of
the next call, not before returning.  On this program (a split whose two
branches meet at offset 2) the call returns with `executed_splits = [0]`,
which is not empty — contradicting the claim (and the function's own
documentation) that both scratch buffers are empty on return.  The
pending-offsets stack is empty on return (the loop exits only when it is). -/
theorem executed_splits_kept_after_return :
    epsilonClosure progSplitDup ⟨0, false⟩ (some 97) none 5 [] =
      ClosureOut.ok [0] [2] ∧ ([0] : List Nat) ≠ [] := by
  exact ⟨by decide, by decide⟩

/-- C5: inside one epsilon-closure call, a not-yet-executed `SplitA` explores
its fallthrough before its offset target, `SplitB` its offset target before
its fallthrough, and `SplitN` its listed targets in listed order: with both
branches blocked on terminal instructions, the output closure lists the
fallthrough first for `SplitA`, the offset target first for `SplitB`, and the
listed targets in listed order for `SplitN`.  Since `try_match` dispatches
threads in closure order, the earlier-ordered branch's `Match` is delivered
first. -/
theorem alternation_priority :
    (∀ (P : Program) (bw : Bool) (curr prev : Option Nat) (cl : List Nat)
       (ip sz : Nat) (o : Int) (t : Nat),
       P.decode ip = (Instr.SplitA o, sz) → addOffset ip o = some t →
       isTerminal (P.decode (ip + sz)).1 = true → isTerminal (P.decode t).1 = true →
       ip + sz ∉ cl → t ∉ cl → ip + sz ≠ t →
       epsilonClosure P ⟨ip, bw⟩ curr prev 3 cl =
         ClosureOut.ok [ip] (cl ++ [ip + sz, t])) ∧
    (∀ (P : Program) (bw : Bool) (curr prev : Option Nat) (cl : List Nat)
       (ip sz : Nat) (o : Int) (t : Nat),
       P.decode ip = (Instr.SplitB o, sz) → addOffset ip o = some t →
       isTerminal (P.decode (ip + sz)).1 = true → isTerminal (P.decode t).1 = true →
       ip + sz ∉ cl → t ∉ cl → ip + sz ≠ t →
       epsilonClosure P ⟨ip, bw⟩ curr prev 3 cl =
         ClosureOut.ok [ip] (cl ++ [t, ip + sz])) ∧
    (∀ (P : Program) (bw : Bool) (curr prev : Option Nat) (cl : List Nat)
       (ip sz : Nat) (os : List Int) (ts : List Nat),
       P.decode ip = (Instr.SplitN os, sz) → os.mapM (addOffset ip) = some ts →
       (∀ x ∈ ts, isTerminal (P.decode x).1 = true) → ts.Nodup →
       (∀ x ∈ ts, x ∉ cl) →
       epsilonClosure P ⟨ip, bw⟩ curr prev (ts.length + 1) cl =
         ClosureOut.ok [ip] (cl ++ ts)) := by
  refine ⟨?_, ?_, ?_⟩
  · intro P bw curr prev cl ip sz o t hd ha h1 h2 h3 h4 h5
    show closureLoop P bw curr prev (2 + 1) [ip] [] cl = _
    rw [closureLoop_splitA_step P bw curr prev 2 ip sz o t [] [] cl hd rfl ha]
    have hrt := closureLoop_run_terminals P bw curr prev [ip + sz, t] ([] ++ [ip]) cl
      (by
        intro x hx
        rcases List.mem_cons.mp hx with rfl | hx1
        · exact h1
        · rw [List.mem_singleton] at hx1; subst hx1; exact h2)
      (by simp [h5])
      (by
        intro x hx
        rcases List.mem_cons.mp hx with rfl | hx1
        · exact h3
        · rw [List.mem_singleton] at hx1; subst hx1; exact h4)
    simpa using hrt
  · intro P bw curr prev cl ip sz o t hd ha h1 h2 h3 h4 h5
    show closureLoop P bw curr prev (2 + 1) [ip] [] cl = _
    rw [closureLoop_splitB_step P bw curr prev 2 ip sz o t [] [] cl hd rfl ha]
    have hrt := closureLoop_run_terminals P bw curr prev [t, ip + sz] ([] ++ [ip]) cl
      (by
        intro x hx
        rcases List.mem_cons.mp hx with rfl | hx1
        · exact h2
        · rw [List.mem_singleton] at hx1; subst hx1; exact h1)
      (by simp; omega)
      (by
        intro x hx
        rcases List.mem_cons.mp hx with rfl | hx1
        · exact h4
        · rw [List.mem_singleton] at hx1; subst hx1; exact h3)
    simpa using hrt
  · intro P bw curr prev cl ip sz os ts hd ha hterm hnd hmem
    show closureLoop P bw curr prev (ts.length + 1) [ip] [] cl = _
    rw [closureLoop_splitN_step P bw curr prev ts.length ip sz os ts [] [] cl hd rfl ha]
    have hrt := closureLoop_run_terminals P bw curr prev ts ([] ++ [ip]) cl hterm hnd hmem
    simpa using hrt

/-- Witness for C5: for `SplitA` the fallthrough (the `Byte` at 2) enters the
closure before the offset branch (the `Match` at 4); for `SplitB` the offset
branch enters first; for `SplitN` the listed order `[2, 4]` is kept. -/
theorem alternation_priority_witness :
    epsilonClosure progSplitMatch ⟨0, false⟩ none none 3 [] =
      ClosureOut.ok [0] [2, 4] ∧
    epsilonClosure progSplitBMatch ⟨0, false⟩ none none 3 [] =
      ClosureOut.ok [0] [4, 2] ∧
    epsilonClosure progSplitN ⟨0, false⟩ none none 3 [] =
      ClosureOut.ok [0] [2, 4] := by
  refine ⟨?_, ?_, ?_⟩
  · have h := alternation_priority.1 progSplitMatch false none none [] 0 2 4 4 rfl
      (by decide) (by decide) (by decide) (by simp) (by simp) (by decide)
    simpa using h
  · have h := alternation_priority.2.1 progSplitBMatch false none none [] 0 2 4 4 rfl
      (by decide) (by decide) (by decide) (by simp) (by simp) (by decide)
    simpa using h
  · have h := alternation_priority.2.2 progSplitN false none none [] 0 2 [2, 4] [2, 4]
      rfl (by decide) (by decide) (by decide) (by simp)
    simpa using h

/-- C6: `epsilon_closure` appends an offset only when it is not already in
the output (so it preserves no-duplicates), and consequently every
active-thread list of every `try_match` simulation step is duplicate free. -/
theorem thread_uniqueness :
    (∀ (P : Program) (bw : Bool) (curr prev : Option Nat) (n : Nat)
       (stack es cl es1 cl1 : List Nat),
       closureLoop P bw curr prev n stack es cl = ClosureOut.ok es1 cl1 →
       cl.Nodup → cl1.Nodup) ∧
    (∀ (σ : Type) (P : Program) (start : CodeLoc) (scanLimit fuel : Nat)
       (fwd bck : List Nat) (F : σ → Nat → σ × Action) (s0 s : σ)
       (calls : List Nat) (steps : List (List Nat)) (fetches : Nat),
       tryMatch P start scanLimit fuel fwd bck F s0 = Outcome.ok s calls steps fetches →
       ∀ T ∈ steps, T.Nodup) := by
  constructor
  · intro P bw curr prev n stack es cl es1 cl1 h hnd
    exact (closureLoop_sound P bw curr prev n stack es cl es1 cl1 h).2.1 hnd
  · intro σ P start scanLimit fuel fwd bck F s0 s calls steps fetches h
    unfold tryMatch at h
    cases hc : epsilonClosure P start fwd.head? bck.head? fuel [] with
    | panic => rw [hc] at h; cases h
    | out => rw [hc] at h; cases h
    | ok es0 threads =>
      rw [hc] at h
      simp only at h
      obtain ⟨hmem, hnd, -⟩ := closureLoop_sound P start.backwards fwd.head? bck.head?
        fuel [start.location] [] [] es0 threads hc
      have hterm : ∀ ip ∈ threads, isTerminal (P.decode ip).1 = true := by
        intro ip hip
        rcases hmem ip hip with h1 | h1
        · cases h1
        · exact h1
      obtain ⟨-, -, -, h4, -⟩ := vmLoop_ok_sound P start.backwards scanLimit fuel F
        scanLimit threads fwd.head? fwd.tail 0 1 s0 [] [] s calls steps fetches
        (by omega) hterm (hnd List.nodup_nil) (by intro T hT; cases hT) rfl (Or.inl rfl)
        (by intro i T hT; simp at hT) h
      exact h4

/-- Witness for C6: a concrete closure run with both split branches reaching
offset 2 produces the duplicate-free closure `[2]`, and every step of the
concrete pattern-`a` run has a duplicate-free thread list. -/
theorem thread_uniqueness_witness :
    ([2] : List Nat).Nodup ∧ ([2] : List Nat).Nodup := by
  constructor
  · exact thread_uniqueness.1 progSplitDup false (some 97) none 5 [0] [] [] [0] [2]
      (by decide) List.nodup_nil
  · exact thread_uniqueness.2 Unit progByteMatch ⟨0, false⟩ DEFAULT_SCAN_LIMIT 5 [97] []
      alwaysContinue () () [1] [[0], [2]] 3 progByteMatch_run [2] (by simp)

/-- C7 counterexample: the claim fails as stated — on the (decodable, hence
well-formed in the sense of §4.1) program whose instruction at 0 is a jump to
itself, the epsilon-transition graph is cyclic and `epsilon_closure` never
terminates: no amount of fuel completes the loop. -/
theorem closure_jump_cycle_diverges :
    ¬ ∃ (n : Nat) (es cl : List Nat),
        epsilonClosure progJumpLoop ⟨0, false⟩ none none n [] = ClosureOut.ok es cl := by
  rintro ⟨n, es, cl, h⟩
  have h2 : closureLoop progJumpLoop false none none n [0] [] [] =
      ClosureOut.ok es cl := h
  rw [progJumpLoop_stuck n [] []] at h2
  cases h2

/-- C7 (amended): `epsilon_closure` terminates for every starting location of
every program whose epsilon cycles all pass through a split instruction —
formally, whenever some rank function decreases along every non-split epsilon
edge (jumps and zero-width fallthroughs) while all reachable offsets stay
below a bound `L` and every push weight stays below a bound `K`.  Cycles
through splits are harmless because each split is processed at most once per
call via the `executed_splits` bookkeeping; a cycle of non-split edges alone
(see the counterexample) makes the loop diverge. -/
theorem closure_terminates_with_split_bookkeeping (P : Program) (bw : Bool)
    (curr prev : Option Nat) (rank : Nat → Nat) (L K startIp : Nat)
    (hstart : startIp < L)
    (hsuccs : ∀ ip, ip < L → (instrSuccs P ip).isSome = true ∧
      ∀ t ∈ (instrSuccs P ip).getD [], t < L)
    (hrank : ∀ ip, ip < L → isSplit (P.decode ip).1 = false →
      ∀ t ∈ (instrSuccs P ip).getD [], rank t < rank ip)
    (hK : ∀ ip, ip < L → pushCost P rank ip < K) (cl : List Nat) :
    ∃ (n : Nat) (es1 cl1 : List Nat),
      epsilonClosure P ⟨startIp, bw⟩ curr prev n cl = ClosureOut.ok es1 cl1 := by
  have hsuccs2 : ∀ ip, ip < L → ∃ ts, instrSuccs P ip = some ts ∧ ∀ t ∈ ts, t < L := by
    intro ip hip
    obtain ⟨h1, h2⟩ := hsuccs ip hip
    cases hs : instrSuccs P ip with
    | none => rw [hs] at h1; cases h1
    | some ts => exact ⟨ts, rfl, by simpa [hs] using h2⟩
  have hrank2 : ∀ ip, ip < L → isSplit (P.decode ip).1 = false →
      ∀ ts, instrSuccs P ip = some ts → ∀ t ∈ ts, rank t < rank ip := by
    intro ip hip hns ts hts t ht
    have h2 := hrank ip hip hns t
    rw [hts] at h2
    exact h2 ht
  obtain ⟨es1, cl1, h⟩ := closureLoop_term_aux P bw curr prev rank L K hsuccs2 hrank2 hK
    (closureMeasure rank K L [startIp] []) [startIp] [] cl
    (by intro x hx; rw [List.mem_singleton] at hx; subst hx; exact hstart)
    List.nodup_nil (by intro x hx; cases hx) le_rfl
  exact ⟨closureMeasure rank K L [startIp] [], es1, cl1, h⟩

/-- Witness for C7 (amended): the program with a split at 0, a jump at 2 back
to the split, and a byte instruction at 4 has a cyclic epsilon graph through
the split, and its closure completes (rank 1 at the jump, 0 elsewhere,
bounds `L = 6`, `K = 20`). -/
theorem closure_terminates_with_split_bookkeeping_witness :
    ∃ (n : Nat) (es1 cl1 : List Nat),
      epsilonClosure progSplitJumpCycle ⟨0, false⟩ none none n [] =
        ClosureOut.ok es1 cl1 :=
  closure_terminates_with_split_bookkeeping progSplitJumpCycle false none none
    rankCycle 6 20 0 (by decide) (by decide) (by decide) (by decide) []

/-- Generic conditional-push characterisation: when one closure step on the
singleton stack `[ip]` reduces to "push the fallthrough iff `c`", and the
fallthrough is a terminal offset not already in the output, the closure
output gains exactly the fallthrough iff `c` holds. -/
theorem closure_pushcond_iff (P : Program) (bw : Bool) (curr prev : Option Nat)
    (ip sz : Nat) (cl : List Nat) (c : Bool)
    (hterm : isTerminal (P.decode (ip + sz)).1 = true) (hmem : ip + sz ∉ cl)
    (hstep : closureLoop P bw curr prev (1 + 1) [ip] [] cl =
      (if c = true then closureLoop P bw curr prev 1 [ip + sz] [] cl
       else closureLoop P bw curr prev 1 [] [] cl)) :
    (closureLoop P bw curr prev (1 + 1) [ip] [] cl =
      ClosureOut.ok [] (cl ++ [ip + sz])) ↔ c = true := by
  have hpush : closureLoop P bw curr prev 1 [ip + sz] [] cl =
      ClosureOut.ok [] (cl ++ [ip + sz]) := by
    have h2 := closureLoop_run_terminals P bw curr prev [ip + sz] [] cl
      (by intro x hx; rw [List.mem_singleton] at hx; subst hx; exact hterm)
      (List.nodup_singleton _)
      (by intro x hx; rw [List.mem_singleton] at hx; subst hx; exact hmem)
    simpa using h2
  rw [hstep]
  cases c with
  | true => simp [hpush]
  | false => simp [closureLoop]

/-- The word-boundary test of the source equals the bne of the claim-side
word-ness function on the two optional bytes. -/
theorem wbMatch_eq_wOpt (prev curr : Option Nat) :
    wbMatch prev curr = (wOpt prev != wOpt curr) := by
  cases prev with
  | none =>
    cases curr with
    | none => rfl
    | some c => simp [wbMatch, wOpt]
  | some p =>
    cases curr with
    | none => simp [wbMatch, wOpt]
    | some c => rfl

/-- C8: in `epsilon_closure`, a `Start` instruction admits its thread (pushes
the fallthrough into the closure) iff the scan is at its origin — `prev`
absent for a forward location, `curr` absent for a backward location — and an
`End` instruction admits its thread iff the scan is at its terminus — `curr`
absent for a forward location, `prev` absent for a backward location. -/
theorem anchor_semantics (P : Program) (curr prev : Option Nat)
    (ip sz : Nat) (cl : List Nat) :
    (P.decode ip = (Instr.Start, sz) →
      isTerminal (P.decode (ip + sz)).1 = true → ip + sz ∉ cl →
      ((epsilonClosure P ⟨ip, false⟩ curr prev 2 cl =
          ClosureOut.ok [] (cl ++ [ip + sz]) ↔ prev = none) ∧
       (epsilonClosure P ⟨ip, true⟩ curr prev 2 cl =
          ClosureOut.ok [] (cl ++ [ip + sz]) ↔ curr = none))) ∧
    (P.decode ip = (Instr.End, sz) →
      isTerminal (P.decode (ip + sz)).1 = true → ip + sz ∉ cl →
      ((epsilonClosure P ⟨ip, false⟩ curr prev 2 cl =
          ClosureOut.ok [] (cl ++ [ip + sz]) ↔ curr = none) ∧
       (epsilonClosure P ⟨ip, true⟩ curr prev 2 cl =
          ClosureOut.ok [] (cl ++ [ip + sz]) ↔ prev = none))) := by
  constructor
  · intro hd hterm hmem
    constructor
    · have hiff := closure_pushcond_iff P false curr prev ip sz cl prev.isNone hterm hmem
        (by
          rw [closureLoop_start_step P false curr prev 1 ip sz [] [] cl hd]
          simp only [Bool.false_eq_true, if_false])
      show closureLoop P false curr prev (1 + 1) [ip] [] cl =
        ClosureOut.ok [] (cl ++ [ip + sz]) ↔ prev = none
      rw [hiff]
      exact Option.isNone_iff_eq_none
    · have hiff := closure_pushcond_iff P true curr prev ip sz cl curr.isNone hterm hmem
        (by
          rw [closureLoop_start_step P true curr prev 1 ip sz [] [] cl hd]
          simp only [if_true])
      show closureLoop P true curr prev (1 + 1) [ip] [] cl =
        ClosureOut.ok [] (cl ++ [ip + sz]) ↔ curr = none
      rw [hiff]
      exact Option.isNone_iff_eq_none
  · intro hd hterm hmem
    constructor
    · have hiff := closure_pushcond_iff P false curr prev ip sz cl curr.isNone hterm hmem
        (by
          rw [closureLoop_end_step P false curr prev 1 ip sz [] [] cl hd]
          simp only [Bool.false_eq_true, if_false])
      show closureLoop P false curr prev (1 + 1) [ip] [] cl =
        ClosureOut.ok [] (cl ++ [ip + sz]) ↔ curr = none
      rw [hiff]
      exact Option.isNone_iff_eq_none
    · have hiff := closure_pushcond_iff P true curr prev ip sz cl prev.isNone hterm hmem
        (by
          rw [closureLoop_end_step P true curr prev 1 ip sz [] [] cl hd]
          simp only [if_true])
      show closureLoop P true curr prev (1 + 1) [ip] [] cl =
        ClosureOut.ok [] (cl ++ [ip + sz]) ↔ prev = none
      rw [hiff]
      exact Option.isNone_iff_eq_none

/-- Witness for C8: a forward `Start` anchor with no byte before the origin
admits its thread, and a forward `End` anchor with no current byte admits its
thread: the fallthrough `Match` at offset 1 enters the closure. -/
theorem anchor_semantics_witness :
    epsilonClosure progAnchor ⟨0, false⟩ (some 97) none 2 [] = ClosureOut.ok [] [1] ∧
    epsilonClosure progAnchorEnd ⟨0, false⟩ none (some 97) 2 [] = ClosureOut.ok [] [1] := by
  constructor
  · have h := ((anchor_semantics progAnchor (some 97) none 0 1 []).1 rfl (by decide)
      (by simp)).1.mpr rfl
    simpa using h
  · have h := ((anchor_semantics progAnchorEnd none (some 97) 0 1 []).2 rfl (by decide)
      (by simp)).1.mpr rfl
    simpa using h

/-- C9: with `w b` meaning "`b` is an ASCII alphanumeric byte" and a missing
byte counting as non-word, a `WordBoundary` instruction admits its thread iff
`w prev ≠ w curr`, and a `WordBoundaryNeg` admits its thread iff
`w prev = w curr`; in particular on empty input (both bytes absent)
`WordBoundary` rejects and `WordBoundaryNeg` admits. -/
theorem word_boundary_semantics (P : Program) (bw : Bool) (curr prev : Option Nat)
    (ip sz : Nat) (cl : List Nat) :
    (P.decode ip = (Instr.WordBoundary, sz) →
      isTerminal (P.decode (ip + sz)).1 = true → ip + sz ∉ cl →
      (epsilonClosure P ⟨ip, bw⟩ curr prev 2 cl =
        ClosureOut.ok [] (cl ++ [ip + sz]) ↔ wOpt prev ≠ wOpt curr)) ∧
    (P.decode ip = (Instr.WordBoundaryNeg, sz) →
      isTerminal (P.decode (ip + sz)).1 = true → ip + sz ∉ cl →
      (epsilonClosure P ⟨ip, bw⟩ curr prev 2 cl =
        ClosureOut.ok [] (cl ++ [ip + sz]) ↔ wOpt prev = wOpt curr)) := by
  constructor
  · intro hd hterm hmem
    have hiff := closure_pushcond_iff P bw curr prev ip sz cl (wbMatch prev curr)
      hterm hmem (closureLoop_wb_step P bw curr prev 1 ip sz [] [] cl hd)
    show closureLoop P bw curr prev (1 + 1) [ip] [] cl =
      ClosureOut.ok [] (cl ++ [ip + sz]) ↔ wOpt prev ≠ wOpt curr
    rw [hiff, wbMatch_eq_wOpt]
    exact bne_iff_ne
  · intro hd hterm hmem
    have hiff := closure_pushcond_iff P bw curr prev ip sz cl (!wbMatch prev curr)
      hterm hmem
      (by
        rw [closureLoop_wbneg_step P bw curr prev 1 ip sz [] [] cl hd]
        cases hwb : wbMatch prev curr <;> simp [hwb])
    show closureLoop P bw curr prev (1 + 1) [ip] [] cl =
      ClosureOut.ok [] (cl ++ [ip + sz]) ↔ wOpt prev = wOpt curr
    rw [hiff, wbMatch_eq_wOpt]
    simp

/-- Witness for C9: on empty surroundings (both bytes absent) a negated word
boundary admits its thread, and with a word byte on exactly one side a word
boundary admits its thread: the fallthrough `Match` enters the closure. -/
theorem word_boundary_semantics_witness :
    epsilonClosure progWBNeg ⟨0, false⟩ none none 2 [] = ClosureOut.ok [] [1] ∧
    epsilonClosure progWB ⟨0, false⟩ (some 97) none 2 [] = ClosureOut.ok [] [1] := by
  constructor
  · have h := ((word_boundary_semantics progWBNeg false none none 0 1 []).2 rfl
      (by decide) (by simp)).mpr rfl
    simpa using h
  · have h := ((word_boundary_semantics progWB false (some 97) none 0 1 []).1 rfl
      (by decide) (by simp)).mpr (by decide)
    simpa using h

/-- C10: every offset `epsilon_closure` appends to its output decodes to a
byte-consuming instruction or to `Match`; consequently, since `try_match`
only ever dispatches thread lists produced by the closure, its catch-all
`unreachable!()` dispatch arm is never executed — `try_match` never returns
the `unreach` outcome, for any program, inputs and callback. -/
theorem closure_terminal_dispatch_no_unreachable :
    (∀ (P : Program) (bw : Bool) (curr prev : Option Nat) (n : Nat)
       (stack es cl es1 cl1 : List Nat),
       closureLoop P bw curr prev n stack es cl = ClosureOut.ok es1 cl1 →
       ∀ x ∈ cl1, x ∈ cl ∨ isTerminal (P.decode x).1 = true) ∧
    (∀ (σ : Type) (P : Program) (start : CodeLoc) (scanLimit fuel : Nat)
       (fwd bck : List Nat) (F : σ → Nat → σ × Action) (s0 : σ),
       tryMatch P start scanLimit fuel fwd bck F s0 ≠ Outcome.unreach) := by
  constructor
  · intro P bw curr prev n stack es cl es1 cl1 h
    exact (closureLoop_sound P bw curr prev n stack es cl es1 cl1 h).1
  · intro σ P start scanLimit fuel fwd bck F s0 h
    unfold tryMatch at h
    cases hc : epsilonClosure P start fwd.head? bck.head? fuel [] with
    | panic => rw [hc] at h; cases h
    | out => rw [hc] at h; cases h
    | ok es0 threads =>
      rw [hc] at h
      simp only at h
      obtain ⟨hmem, -, -⟩ := closureLoop_sound P start.backwards fwd.head? bck.head?
        fuel [start.location] [] [] es0 threads hc
      have hterm : ∀ ip ∈ threads, isTerminal (P.decode ip).1 = true := by
        intro ip hip
        rcases hmem ip hip with h1 | h1
        · cases h1
        · exact h1
      exact vmLoop_ne_unreach P start.backwards scanLimit fuel F scanLimit threads
        fwd.head? fwd.tail 0 1 s0 [] [] (by omega) hterm h

/-- Witness for C10: in a concrete closure run the appended offset 2 decodes
to a terminal instruction, and the concrete pattern-`a` run never returns
`unreach`. -/
theorem closure_terminal_dispatch_no_unreachable_witness :
    ((2 : Nat) ∈ ([] : List Nat) ∨ isTerminal (progSplitDup.decode 2).1 = true) ∧
    tryMatch progByteMatch ⟨0, false⟩ DEFAULT_SCAN_LIMIT 5 [97] [] alwaysContinue () ≠
      Outcome.unreach := by
  constructor
  · exact closure_terminal_dispatch_no_unreachable.1 progSplitDup false (some 97) none
      5 [0] [] [] [0] [2] (by decide) 2 (by simp)
  · exact closure_terminal_dispatch_no_unreachable.2 Unit progByteMatch ⟨0, false⟩
      DEFAULT_SCAN_LIMIT 5 [97] [] alwaysContinue ()

end PikeVM
